import Mathlib

/-!
# Snake: the game-state engine of `snake.cpp`

A shallow embedding of the game core of `src/snake.cpp` (collision queries,
apple placement, growth, the tick function, one pass of the game loop and the
set-up done by `main`), followed by theorems about it.

Conventions of the embedding:

* C++ `int` is `Int`.  Signed overflow is undefined behaviour in C++; the
  embedding describes executions in which no `int` computation overflows.
* The linked list hanging off the global `head` is a `List Position`, head
  first; `[]` is `head == nullptr`.
* The module globals are the fields of `Session`; every function takes the
  session and returns the updated one.
* A function that dereferences a null tile, or whose loop is not finished by
  the random draws it was given, has no result (`none`).
* `rand()` is a list of draws (natural numbers, since `rand()` never returns
  a negative value) consumed from the front; what is left is returned.
-/

namespace Snake

/-! ## Constants and types -/

def BOARD_WIDTH : Int := 20
def BOARD_HEIGHT : Int := 20
def UNIT_TICK : Int := 200

structure Position where
  x : Int
  y : Int
deriving DecidableEq, Repr

/-- The globals of the program: `head` (as the list of tile positions),
`apple`, `direction_x`, `direction_y`, `delta_tick`, `score`. -/
structure Session where
  chain : List Position
  apple : Position
  direction_x : Int
  direction_y : Int
  delta_tick : Int
  score : Int
deriving DecidableEq, Repr

/-! ## Collision queries -/

/-- `checkSnakeCollision(pos)`: walk the tiles from `head`, return true at the
first tile whose x and y both equal those of `pos`. -/
def checkSnakeCollision : List Position → Position → Bool
  | [], _ => false
  | current_tile :: next, pos =>
    if current_tile.x = pos.x ∧ current_tile.y = pos.y then true
    else checkSnakeCollision next pos

/-- `checkAppleCollision(position)`. -/
def checkAppleCollision (s : Session) (position : Position) : Bool :=
  decide (position.x = s.apple.x ∧ position.y = s.apple.y)

/-! ## Apple placement -/

/-- `placeApple()`: the do-while loop.  Each pass takes two draws, stores
`draw % BOARD_WIDTH` in `apple.x` and `draw % BOARD_HEIGHT` in `apple.y`, and
repeats while the apple is on the snake.  `none` when the draws run out
before a pass ends the loop. -/
def placeApple : List Nat → Session → Option (Session × List Nat)
  | rx :: ry :: draws, s =>
    let s1 := { s with apple := ⟨(rx : Int) % BOARD_WIDTH, (ry : Int) % BOARD_HEIGHT⟩ }
    if checkSnakeCollision s1.chain s1.apple then placeApple draws s1
    else some (s1, draws)
  | _, _ => none

/-! ## Growth -/

/-- The tail walk of `eatApple`: `current_tile` advances while it has a
`next`; the last tile gets a new `next` holding a copy of its position. -/
def growTail : Position → List Position → List Position
  | current_tile, [] => [current_tile, ⟨current_tile.x, current_tile.y⟩]
  | current_tile, next :: more => current_tile :: growTail next more

/-- `eatApple()`: `score++`, grow the snake at the tail, `placeApple()`.
With `head == nullptr` the tail walk dereferences null: no result. -/
def eatApple (draws : List Nat) (s : Session) : Option (Session × List Nat) :=
  let s1 := { s with score := s.score + 1 }
  match s1.chain with
  | [] => none
  | current_tile :: next =>
    placeApple draws { s1 with chain := growTail current_tile next }

/-! ## The tick -/

/-- The body-shifting loop of `tick`: each tile after the head receives
`old_position`, and its own previous position becomes `old_position` for
the tile after it. -/
def shiftBody : Position → List Position → List Position
  | _, [] => []
  | old_position, current_tile :: next => old_position :: shiftBody current_tile next

/-- `tick(deltaFrame)`: the returned flag and the updated globals.  With
`head == nullptr` the movement branch dereferences null: no result. -/
def tick (deltaFrame : Int) (s : Session) : Option (Bool × Session) :=
  let s1 := { s with delta_tick := s.delta_tick + deltaFrame }
  if s1.delta_tick > UNIT_TICK then
    let s2 := { s1 with delta_tick := s1.delta_tick - UNIT_TICK }
    match s2.chain with
    | [] => none
    | head :: next =>
      let next_position : Position := ⟨head.x + s2.direction_x, head.y + s2.direction_y⟩
      if checkSnakeCollision s2.chain next_position ||
          decide (next_position.x < 0) || decide (next_position.x ≥ BOARD_WIDTH) ||
          decide (next_position.y < 0) || decide (next_position.y ≥ BOARD_HEIGHT) then
        some (false, s2)
      else
        some (true, { s2 with chain := next_position :: shiftBody head next })
  else
    some (true, s1)

/-! ## The game loop and `main` -/

/-- What `getch()` can deliver, as far as the `switch` of `game_loop`
distinguishes it: a/left, d/right, w/up, s/down, q, anything else
(including no key). -/
inductive Key
  | left | right | up | down | quit | other
deriving DecidableEq, Repr

/-- The `switch (key)` of `game_loop`: the new globals, or `none` for `q`
(the loop returns). -/
def handleKey : Key → Session → Option Session
  | Key.left, s => some { s with direction_x := -1, direction_y := 0 }
  | Key.right, s => some { s with direction_x := 1, direction_y := 0 }
  | Key.up, s => some { s with direction_x := 0, direction_y := -1 }
  | Key.down, s => some { s with direction_x := 0, direction_y := 1 }
  | Key.quit, _ => none
  | Key.other, s => some s

/-- How one pass of the `while (true)` body of `game_loop` ends. -/
inductive Pass
  /-- The pass reached `draw()`; the loop goes round again. -/
  | running (s : Session) (draws : List Nat)
  /-- The key was `q`: `game_loop` returned. -/
  | quitted (s : Session)
  /-- `tick` returned false: `game_loop` returned. -/
  | dead (s : Session)
  /-- No result (null dereference, or the draws ran out inside `placeApple`). -/
  | stuck
deriving DecidableEq, Repr

/-- One pass of the body of `game_loop` with key `key` and elapsed time
`delta`. -/
def loopPass (key : Key) (delta : Int) (draws : List Nat) (s : Session) : Pass :=
  match handleKey key s with
  | none => Pass.quitted s
  | some s1 =>
    match tick delta s1 with
    | none => Pass.stuck
    | some (false, s2) => Pass.dead s2
    | some (true, s2) =>
      match s2.chain with
      | [] => Pass.stuck
      | head :: _ =>
        if checkAppleCollision s2 head then
          match eatApple draws s2 with
          | none => Pass.stuck
          | some (s3, draws3) => Pass.running s3 draws3
        else Pass.running s2 draws

/-- The globals as initialised at program start (`apple` is
zero-initialised). -/
def globals : Session :=
  { chain := [], apple := ⟨0, 0⟩, direction_x := 0, direction_y := -1,
    delta_tick := 0, score := 1 }

/-- The "Create initial snake" block of `main`: the head at the board centre,
then for `i = 1, 2, 3` a tile at `(head.x, head.y + i)` appended and
`score++`. -/
def createInitialSnake (s : Session) : Session :=
  let head : Position := ⟨BOARD_WIDTH / 2, BOARD_HEIGHT / 2⟩
  [1, 2, 3].foldl
    (fun (st : Session) (i : Int) =>
      { st with chain := st.chain ++ [⟨head.x, head.y + i⟩], score := st.score + 1 })
    { s with chain := [head] }

/-- The session `main` hands to `game_loop`, before its `placeApple()`. -/
def initialSession : Session := createInitialSnake globals

/-- The session at the entry of `game_loop`: `initialSession` after
`placeApple()`. -/
def startSession (draws : List Nat) : Option (Session × List Nat) :=
  placeApple draws initialSession

/-- A run of `tick` calls, one per element of `deltas`, stopping at the first
call without a result; the flags returned, in order, and the final
globals. -/
def runTicks : List Int → Session → Option (List Bool × Session)
  | [], s => some ([], s)
  | d :: ds, s =>
    match tick d s with
    | none => none
    | some (b, s1) =>
      match runTicks ds s1 with
      | none => none
      | some (bs, s2) => some (b :: bs, s2)

/-! ## Vocabulary of the statements -/

/-- The cell `tick` tries to move the head to: head plus direction. -/
def candidate (s : Session) (head : Position) : Position :=
  ⟨head.x + s.direction_x, head.y + s.direction_y⟩

/-- The cell lies on the board: `0 ≤ x < BOARD_WIDTH`, `0 ≤ y < BOARD_HEIGHT`. -/
def onBoard (p : Position) : Prop :=
  0 ≤ p.x ∧ p.x < BOARD_WIDTH ∧ 0 ≤ p.y ∧ p.y < BOARD_HEIGHT

instance (p : Position) : Decidable (onBoard p) := by
  unfold onBoard; infer_instance

/-- The `j`-th cell sampled by `placeApple` from the draws: draws `2j` and
`2j+1`, reduced modulo the board width and height. -/
def sample (draws : List Nat) (j : Nat) : Option Position :=
  match draws[2 * j]?, draws[2 * j + 1]? with
  | some rx, some ry => some ⟨(rx : Int) % BOARD_WIDTH, (ry : Int) % BOARD_HEIGHT⟩
  | _, _ => none

/-- A chain that winds through every cell of the board: row `y` from left to
right for even `y`, from right to left for odd `y`. -/
def fullBoard : List Position :=
  (List.range 20).flatMap fun (y : Nat) =>
    (if y % 2 = 0 then List.range 20 else (List.range 20).reverse).map
      fun (x : Nat) => (⟨Int.ofNat x, Int.ofNat y⟩ : Position)

/-- The sessions `game_loop` can be in at the top of a pass: the session at
its entry, and every session left by a pass that goes on to the next one
(key handled, `tick` with a non-negative elapsed time returned true, apple
eaten when the head is on it). -/
inductive Reachable : Session → Prop
  | start (draws rest : List Nat) (s : Session) :
      startSession draws = some (s, rest) → Reachable s
  | pass (key : Key) (delta : Int) (draws rest : List Nat) (s s1 : Session) :
      Reachable s → 0 ≤ delta → loopPass key delta draws s = Pass.running s1 rest →
      Reachable s1

/-- The sessions obtained from `initialSession` by any sequence of calls of
`handleKey`, `tick`, `eatApple` and `placeApple` that return. -/
inductive CallReachable : Session → Prop
  | init : CallReachable initialSession
  | key (k : Key) (s s1 : Session) :
      CallReachable s → handleKey k s = some s1 → CallReachable s1
  | tick (deltaFrame : Int) (b : Bool) (s s1 : Session) :
      CallReachable s → tick deltaFrame s = some (b, s1) → CallReachable s1
  | eat (draws rest : List Nat) (s s1 : Session) :
      CallReachable s → eatApple draws s = some (s1, rest) → CallReachable s1
  | place (draws rest : List Nat) (s s1 : Session) :
      CallReachable s → placeApple draws s = some (s1, rest) → CallReachable s1

/-- The positions of a chain are pairwise distinct, except that the last
segment may repeat the one before it (as `eatApple` leaves it). -/
def TailDup (chain : List Position) : Prop :=
  chain.Nodup ∨ ∃ l p, chain = l ++ [p, p] ∧ (l ++ [p]).Nodup

/-- The invariant of the game loop: the chain is non-empty, the apple is on
no segment, and only the last segment may repeat a position. -/
def LoopInv (s : Session) : Prop :=
  s.chain ≠ [] ∧ s.apple ∉ s.chain ∧ TailDup s.chain

/-- The session after the first apple was eaten in the run: the apple is
placed at `(10, 9)` by the draws `10, 9`, one pass with no key and 201 ms
moves the head onto it, and the draws `0, 0` place the next apple. -/
def afterEating : Session :=
  { chain := [⟨10, 9⟩, ⟨10, 10⟩, ⟨10, 11⟩, ⟨10, 12⟩, ⟨10, 12⟩], apple := ⟨0, 0⟩,
    direction_x := 0, direction_y := -1, delta_tick := 1, score := 5 }

/-- Every call of a run of `tick` calls with the elapsed times `ds`, started
with `acc` in `delta_tick`, crosses the threshold: `delta_tick + d` exceeds
`UNIT_TICK` at each call (a crossing call leaves `delta_tick + d - UNIT_TICK`). -/
def crossesAll : Int → List Int → Bool
  | _, [] => true
  | acc, d :: ds => decide (acc + d > UNIT_TICK) && crossesAll (acc + d - UNIT_TICK) ds

/-- The initial snake moved straight up so that its head is in row `y`. -/
def upColumn (y : Int) : List Position :=
  [⟨10, y⟩, ⟨10, y + 1⟩, ⟨10, y + 2⟩, ⟨10, y + 3⟩]

/-- The Manhattan distance of two cells. -/
def manhattan (p q : Position) : Nat :=
  (p.x - q.x).natAbs + (p.y - q.y).natAbs

/-- The direction is one of the four unit vectors along the axes. -/
def unitDirection (s : Session) : Prop :=
  (s.direction_x = -1 ∧ s.direction_y = 0) ∨ (s.direction_x = 1 ∧ s.direction_y = 0) ∨
    (s.direction_x = 0 ∧ s.direction_y = -1) ∨ (s.direction_x = 0 ∧ s.direction_y = 1)

/-- The second invariant of the game loop: the direction is a unit vector,
neighbouring segments are one step apart, except that the last segment may
lie on the one before it. -/
def Connected (s : Session) : Prop :=
  unitDirection s ∧ List.Chain' (fun p q => manhattan p q = 1) s.chain.dropLast ∧
    List.Chain' (fun p q => manhattan p q ≤ 1) s.chain

/-- The key that steers the head towards a neighbouring cell. -/
def keyToward (head target : Position) : Key :=
  if target.x < head.x then Key.left
  else if target.x > head.x then Key.right
  else if target.y < head.y then Key.up else Key.down

/-- The session at the entry of the game loop when the first two draws are
10 and 9: the first apple is right above the head. -/
def firstApple : Session :=
  { initialSession with apple := ⟨10, 9⟩ }

/-- The `n`-th cell of a closed tour through all 400 cells of the board:
along row 0 from left to right, then column by column from column 19 back
to column 0 between rows 1 and 19, odd columns downwards and even columns
upwards; cell 399 is `(0, 1)`, next to cell 0. -/
def tourCell (n : Nat) : Position :=
  if n < 20 then ⟨Int.ofNat n, 0⟩
  else
    ⟨Int.ofNat (19 - (n - 20) / 19),
      Int.ofNat (if (19 - (n - 20) / 19) % 2 = 1 then 1 + (n - 20) % 19
        else 19 - (n - 20) % 19)⟩

/-- The place of a cell of the board on the tour. -/
def tourIndex (p : Position) : Nat :=
  if p.y.toNat = 0 then p.x.toNat
  else 20 + (19 - p.x.toNat) * 19 +
    (if p.x.toNat % 2 = 1 then p.y.toNat - 1 else 19 - p.y.toNat)

/-- The tour counted from the tail of the initial snake: cells 0 to 3 are
`(10,13)`, `(10,12)`, `(10,11)`, `(10,10)`, and the numbering goes round
the tour with period 400. -/
def cell (i : Nat) : Position :=
  tourCell ((i + 197) % 400)

/-- The second cell is one step left, right, up or down from the first. -/
def adjacent (a b : Position) : Bool :=
  decide (b = ⟨a.x - 1, a.y⟩) || decide (b = ⟨a.x + 1, a.y⟩) ||
    decide (b = ⟨a.x, a.y - 1⟩) || decide (b = ⟨a.x, a.y + 1⟩)

/-- The session after `k` passes of a game in which the player follows the
tour, 201 ms elapse in every pass, and every apple appears on the next cell
of the tour, so that every pass eats: the snake lies on the cells `k + 3`
down to `1` (the last of its `k + 4` segments still on the cell before it
when `k > 0`), heading along the tour, and the apple is on cell `k + 4`. -/
def played (k : Nat) : Session :=
  { chain := ((List.range' 1 (k + 3)).reverse.map cell) ++ [cell (if k = 0 then 0 else 1)],
    apple := cell (k + 4),
    direction_x := (cell (k + 3)).x - (cell (k + 2)).x,
    direction_y := (cell (k + 3)).y - (cell (k + 2)).y,
    delta_tick := (k : Int),
    score := ((k + 4 : Nat) : Int) }

/-- The session left by `tick 500` on the initial session: one movement
made, 300 ms still accumulated. -/
def afterLongFrame : Session :=
  { chain := [⟨10, 9⟩, ⟨10, 10⟩, ⟨10, 11⟩, ⟨10, 12⟩], apple := ⟨0, 0⟩,
    direction_x := 0, direction_y := -1, delta_tick := 300, score := 4 }

/-! ## Basic facts about the loops -/

theorem checkSnakeCollision_iff_mem (chain : List Position) (pos : Position) :
    checkSnakeCollision chain pos = true ↔ pos ∈ chain := by
  induction chain with
  | nil => simp [checkSnakeCollision]
  | cons t rest ih =>
    have hext : (t.x = pos.x ∧ t.y = pos.y) ↔ pos = t := by
      constructor
      · rintro ⟨h1, h2⟩
        cases t; cases pos; simp_all
      · rintro rfl; exact ⟨rfl, rfl⟩
    by_cases h : t.x = pos.x ∧ t.y = pos.y
    · simp [checkSnakeCollision, h, hext.mp h]
    · have hne : ¬ pos = t := fun e => h (hext.mpr e)
      simp [checkSnakeCollision, h, hne, ih]

theorem checkSnakeCollision_eq_false_iff (chain : List Position) (pos : Position) :
    checkSnakeCollision chain pos = false ↔ pos ∉ chain := by
  rw [← checkSnakeCollision_iff_mem]; simp

theorem shiftBody_eq_dropLast (old_position : Position) (body : List Position) :
    shiftBody old_position body = (old_position :: body).dropLast := by
  induction body generalizing old_position with
  | nil => rfl
  | cons t rest ih => simp [shiftBody, ih, List.dropLast]

theorem growTail_eq_append (current_tile : Position) (next : List Position) :
    growTail current_tile next =
      (current_tile :: next) ++ [(current_tile :: next).getLast (List.cons_ne_nil _ _)] := by
  induction next generalizing current_tile with
  | nil => rfl
  | cons t rest ih => simp [growTail, ih]

/-- The movement branch of `tick` in closed form: with the time budget
crossed and a non-empty chain, `tick` dies exactly when the candidate is on
the chain or off the board, and otherwise shifts the chain. -/
theorem tick_cross (deltaFrame : Int) (s : Session) (head : Position) (next : List Position)
    (hchain : s.chain = head :: next) (hthr : s.delta_tick + deltaFrame > UNIT_TICK) :
    tick deltaFrame s =
      if candidate s head ∈ s.chain ∨ ¬ onBoard (candidate s head) then
        some (false, { s with delta_tick := s.delta_tick + deltaFrame - UNIT_TICK })
      else
        some (true, { s with delta_tick := s.delta_tick + deltaFrame - UNIT_TICK,
                             chain := candidate s head :: s.chain.dropLast }) := by
  have hcoll : ∀ p, checkSnakeCollision (head :: next) p = decide (p ∈ head :: next) := by
    intro p
    by_cases h : p ∈ head :: next
    · simp only [h, decide_True]; exact (checkSnakeCollision_iff_mem _ _).mpr h
    · simp only [h, decide_False]; exact (checkSnakeCollision_eq_false_iff _ _).mpr h
  simp only [tick, hthr, if_true, hchain, hcoll, shiftBody_eq_dropLast, candidate, onBoard]
  by_cases hm : (⟨head.x + s.direction_x, head.y + s.direction_y⟩ : Position) ∈ head :: next
  · simp [hm]
  · simp only [hm, decide_False, Bool.false_or, false_or]
    by_cases hb : 0 ≤ head.x + s.direction_x ∧ head.x + s.direction_x < BOARD_WIDTH ∧
        0 ≤ head.y + s.direction_y ∧ head.y + s.direction_y < BOARD_HEIGHT
    · obtain ⟨h1, h2, h3, h4⟩ := hb
      simp [h1, h2, h3, h4, not_lt.mpr h1, not_le.mpr h2, not_lt.mpr h3, not_le.mpr h4]
    · have hb2 : (head.x + s.direction_x < 0 ∨ head.x + s.direction_x ≥ BOARD_WIDTH) ∨
          (head.y + s.direction_y < 0 ∨ head.y + s.direction_y ≥ BOARD_HEIGHT) := by
        by_contra hcon
        push_neg at hcon
        exact hb ⟨hcon.1.1, hcon.1.2, hcon.2.1, hcon.2.2⟩
      have hcond : (decide (head.x + s.direction_x < 0) || decide (head.x + s.direction_x ≥ BOARD_WIDTH)
          || decide (head.y + s.direction_y < 0) || decide (head.y + s.direction_y ≥ BOARD_HEIGHT)) = true := by
        simp only [Bool.or_eq_true, decide_eq_true_eq]
        tauto
      simp [hcond, hb]

/-- Below or at the threshold `tick` only adds to the accumulated time. -/
theorem tick_idle (deltaFrame : Int) (s : Session) (hthr : s.delta_tick + deltaFrame ≤ UNIT_TICK) :
    tick deltaFrame s = some (true, { s with delta_tick := s.delta_tick + deltaFrame }) := by
  simp [tick, not_lt.mpr hthr]

/-! ## C1: a legal tick is a pure shift -/

/-- C1. For a session with non-empty chain `p0 :: rest`, when the accumulated
time plus `elapsed` exceeds 200 and the candidate `c = p0 + direction` is on
the board and on no segment, `tick elapsed` returns true; the chain becomes
`c :: (p0 :: rest).dropLast`: same length, head `c`, and segment `i + 1`
holds what segment `i` held before the call. -/
theorem tick_advance (s : Session) (p0 : Position) (rest : List Position) (elapsed : Int)
    (hchain : s.chain = p0 :: rest) (helapsed : 0 ≤ elapsed)
    (hthr : s.delta_tick + elapsed > 200)
    (hboard : 0 ≤ (candidate s p0).x ∧ (candidate s p0).x < 20 ∧
      0 ≤ (candidate s p0).y ∧ (candidate s p0).y < 20)
    (hfree : ∀ q ∈ s.chain, q ≠ candidate s p0) :
    ∃ s1, tick elapsed s = some (true, s1) ∧
      s1.chain = candidate s p0 :: (p0 :: rest).dropLast ∧
      s1.chain.length = s.chain.length ∧
      s1.chain.head? = some (candidate s p0) ∧
      ∀ i, i + 1 < s.chain.length → s1.chain[i + 1]? = s.chain[i]? := by
  have _ := helapsed
  have hnot : ¬ (candidate s p0 ∈ s.chain ∨ ¬ onBoard (candidate s p0)) := by
    rintro (hm | hb)
    · exact hfree _ hm rfl
    · exact hb hboard
  refine ⟨{ s with delta_tick := s.delta_tick + elapsed - UNIT_TICK,
                    chain := candidate s p0 :: s.chain.dropLast }, ?_, ?_, ?_, ?_, ?_⟩
  · rw [tick_cross elapsed s p0 rest hchain hthr, if_neg hnot]
  · simp [hchain]
  · simp [hchain]
  · simp
  · intro i hi
    simp only [List.getElem?_cons_succ]
    rw [List.getElem?_eq_getElem (by simpa using Nat.lt_pred_iff.mpr hi),
      List.getElem?_eq_getElem (Nat.lt_of_succ_lt hi), List.getElem_dropLast]

/-- C1 at the initial session: `tick 201` moves the snake one cell up. -/
theorem tick_advance_witness :
    ∃ s1, tick 201 initialSession = some (true, s1) ∧
      s1.chain = (⟨10, 9⟩ : Position) :: [⟨10, 10⟩, ⟨10, 11⟩, ⟨10, 12⟩, ⟨10, 13⟩].dropLast ∧
      s1.chain.length = initialSession.chain.length ∧
      s1.chain.head? = some ⟨10, 9⟩ ∧
      ∀ i, i + 1 < initialSession.chain.length → s1.chain[i + 1]? = initialSession.chain[i]? :=
  tick_advance initialSession ⟨10, 10⟩ [⟨10, 11⟩, ⟨10, 12⟩, ⟨10, 13⟩] 201
    (by decide) (by decide) (by decide) (by decide) (by decide)

/-! ## C2: when a tick is fatal -/

/-- C2. For a session with non-empty chain and `elapsed ≥ 0`, `tick elapsed`
returns false exactly when the accumulated time plus `elapsed` exceeds 200
and the candidate `head + direction` is the position of some segment of the
chain as it is before the move (the tail included) or has `x` outside
`[0, 20)` or `y` outside `[0, 20)`; in every other case it returns true. -/
theorem tick_dead_iff (s : Session) (p0 : Position) (rest : List Position) (elapsed : Int)
    (hchain : s.chain = p0 :: rest) (helapsed : 0 ≤ elapsed) :
    ((∃ s1, tick elapsed s = some (false, s1)) ↔
      (s.delta_tick + elapsed > 200 ∧
        ((∃ q ∈ p0 :: rest, q = candidate s p0) ∨
          (candidate s p0).x < 0 ∨ 20 ≤ (candidate s p0).x ∨
          (candidate s p0).y < 0 ∨ 20 ≤ (candidate s p0).y))) ∧
    ((∃ s1, tick elapsed s = some (true, s1)) ↔
      ¬ (s.delta_tick + elapsed > 200 ∧
        ((∃ q ∈ p0 :: rest, q = candidate s p0) ∨
          (candidate s p0).x < 0 ∨ 20 ≤ (candidate s p0).x ∨
          (candidate s p0).y < 0 ∨ 20 ≤ (candidate s p0).y))) := by
  have _ := helapsed
  have hblock : ((∃ q ∈ p0 :: rest, q = candidate s p0) ∨
      (candidate s p0).x < 0 ∨ 20 ≤ (candidate s p0).x ∨
      (candidate s p0).y < 0 ∨ 20 ≤ (candidate s p0).y) ↔
      (candidate s p0 ∈ s.chain ∨ ¬ onBoard (candidate s p0)) := by
    rw [hchain]
    simp only [onBoard, BOARD_WIDTH, BOARD_HEIGHT, exists_eq_right]
    constructor
    · rintro (h | h | h | h | h)
      · exact Or.inl h
      · exact Or.inr (fun hb => absurd hb.1 (not_le.mpr h))
      · exact Or.inr (fun hb => absurd hb.2.1 (not_lt.mpr h))
      · exact Or.inr (fun hb => absurd hb.2.2.1 (not_le.mpr h))
      · exact Or.inr (fun hb => absurd hb.2.2.2 (not_lt.mpr h))
    · rintro (h | h)
      · exact Or.inl h
      · by_contra hcon
        push_neg at hcon
        exact h ⟨hcon.2.1, hcon.2.2.1, hcon.2.2.2.1, hcon.2.2.2.2⟩
  rw [hblock]
  by_cases hthr : s.delta_tick + elapsed > 200
  · rw [tick_cross elapsed s p0 rest hchain hthr]
    by_cases hb : candidate s p0 ∈ s.chain ∨ ¬ onBoard (candidate s p0)
    · simp [hb, hthr]
    · simp [hb, hthr]
  · rw [tick_idle elapsed s (not_lt.mp hthr)]
    simp [hthr]

/-- C2 at the initial session turned downwards: the candidate `(10, 11)` is
the second segment, so `tick 201` returns false. -/
theorem tick_dead_iff_witness :
    ((∃ s1, tick 201 { initialSession with direction_y := 1 } = some (false, s1)) ↔
      ((0 : Int) + 201 > 200 ∧
        ((∃ q ∈ [(⟨10, 10⟩ : Position), ⟨10, 11⟩, ⟨10, 12⟩, ⟨10, 13⟩], q = ⟨10, 11⟩) ∨
          (10 : Int) < 0 ∨ (20 : Int) ≤ 10 ∨ (11 : Int) < 0 ∨ (20 : Int) ≤ 11))) ∧
    ((∃ s1, tick 201 { initialSession with direction_y := 1 } = some (true, s1)) ↔
      ¬ ((0 : Int) + 201 > 200 ∧
        ((∃ q ∈ [(⟨10, 10⟩ : Position), ⟨10, 11⟩, ⟨10, 12⟩, ⟨10, 13⟩], q = ⟨10, 11⟩) ∨
          (10 : Int) < 0 ∨ (20 : Int) ≤ 10 ∨ (11 : Int) < 0 ∨ (20 : Int) ≤ 11))) :=
  tick_dead_iff { initialSession with direction_y := 1 } ⟨10, 10⟩
    [⟨10, 11⟩, ⟨10, 12⟩, ⟨10, 13⟩] 201 (by decide) (by decide)

/-! ## C3: catching up -/

/-- The elapsed time can be moved into the accumulated time before the call. -/
theorem tick_eq_tick_zero (e : Int) (s : Session) :
    tick e s = tick 0 { s with delta_tick := s.delta_tick + e } := by
  simp [tick]

/-- Across the threshold, the accumulated time only decides what accumulated
time is left: two calls that both cross the threshold on sessions differing
in `delta_tick` only do the same to everything else. -/
theorem tick_cross_congr (e e1 d : Int) (s : Session)
    (hs : s.delta_tick + e > UNIT_TICK) (hd : d + e1 > UNIT_TICK) :
    tick e1 { s with delta_tick := d } =
      (tick e s).map fun r => (r.1, { r.2 with delta_tick := d + e1 - UNIT_TICK }) := by
  obtain hc | ⟨h, t, hc⟩ : s.chain = [] ∨ ∃ h t, s.chain = h :: t := by
    cases s.chain <;> simp
  · simp [tick, hs, hd, hc]
  · have hc1 : ({ s with delta_tick := d } : Session).chain = h :: t := hc
    rw [tick_cross e1 _ h t hc1 hd, tick_cross e s h t hc hs]
    have hcand : candidate { s with delta_tick := d } h = candidate s h := rfl
    rw [hcand]
    by_cases hb : candidate s h ∈ s.chain ∨ ¬ onBoard (candidate s h)
    · simp [hb]
    · simp [hb]

/-- What `tick` leaves in `delta_tick` after crossing the threshold. -/
theorem tick_cross_delta (e : Int) (s s1 : Session) (b : Bool)
    (hs : s.delta_tick + e > UNIT_TICK) (h : tick e s = some (b, s1)) :
    s1.delta_tick = s.delta_tick + e - UNIT_TICK := by
  obtain hc | ⟨p, t, hc⟩ : s.chain = [] ∨ ∃ p t, s.chain = p :: t := by
    cases s.chain <;> simp
  · simp [tick, hs, hc] at h
  · rw [tick_cross e s p t hc hs] at h
    by_cases hb : candidate s p ∈ s.chain ∨ ¬ onBoard (candidate s p)
    · rw [if_pos hb] at h
      cases h; rfl
    · rw [if_neg hb] at h
      cases h; rfl

theorem runTicks_append (xs ys : List Int) (s : Session) :
    runTicks (xs ++ ys) s =
      (runTicks xs s).bind fun r => (runTicks ys r.2).map fun q => (r.1 ++ q.1, q.2) := by
  induction xs generalizing s with
  | nil =>
    simp only [List.nil_append, runTicks, Option.some_bind]
    cases runTicks ys s <;> simp
  | cons d ds ih =>
    rw [List.cons_append, runTicks, runTicks]
    cases htick : tick d s with
    | none => rfl
    | some r =>
      obtain ⟨b, s1⟩ := r
      simp only []
      rw [ih s1]
      cases h1 : runTicks ds s1 with
      | none => rfl
      | some r1 =>
        obtain ⟨bs, s2⟩ := r1
        simp only [Option.some_bind]
        cases h2 : runTicks ys s2 with
        | none => rfl
        | some r2 => rfl

/-- With a positive accumulated time, working off a backlog of `K`
thresholds by `K` calls `tick 0` does what `K` calls `tick 200` do. -/
theorem runTicks_backlog (K : Nat) (s : Session) (hpos : 0 < s.delta_tick) :
    runTicks (List.replicate K 0) { s with delta_tick := s.delta_tick + (K : Int) * 200 } =
      runTicks (List.replicate K 200) s := by
  induction K generalizing s with
  | zero => simp [runTicks]
  | succ K ih =>
    have hs : s.delta_tick + 200 > UNIT_TICK := by simp only [UNIT_TICK]; omega
    have hd : s.delta_tick + ((K + 1 : Nat) : Int) * 200 + 0 > UNIT_TICK := by
      simp only [UNIT_TICK]; push_cast; omega
    simp only [List.replicate_succ, runTicks]
    rw [tick_cross_congr 200 0 _ s hs hd]
    cases htick : tick 200 s with
    | none => simp
    | some r =>
      obtain ⟨b, s1⟩ := r
      have hdelta := tick_cross_delta 200 s s1 b hs htick
      have hs1 : s1.delta_tick = s.delta_tick := by rw [hdelta]; simp [UNIT_TICK]
      have hpos1 : 0 < s1.delta_tick := by rw [hs1]; exact hpos
      have heq : s.delta_tick + ((K + 1 : Nat) : Int) * 200 + 0 - UNIT_TICK =
          s1.delta_tick + (K : Int) * 200 := by
        rw [hs1]; simp only [UNIT_TICK]; push_cast; ring
      simp only [Option.map_some', heq, ih s1 hpos1]

/-- A run of `tick 200` calls from a positive accumulated time leaves the
accumulated time as it was. -/
theorem runTicks_threshold_delta (K : Nat) (s s1 : Session) (bs : List Bool)
    (hpos : 0 < s.delta_tick) (h : runTicks (List.replicate K 200) s = some (bs, s1)) :
    s1.delta_tick = s.delta_tick := by
  induction K generalizing s bs with
  | zero =>
    simp only [List.replicate_zero, runTicks, Option.some.injEq, Prod.mk.injEq] at h
    rw [h.2]
  | succ K ih =>
    have hs : s.delta_tick + 200 > UNIT_TICK := by simp only [UNIT_TICK]; omega
    simp only [List.replicate_succ, runTicks] at h
    cases htick : tick 200 s with
    | none => simp [htick] at h
    | some r =>
      obtain ⟨b, s2⟩ := r
      have hdelta := tick_cross_delta 200 s s2 b hs htick
      have hs2 : s2.delta_tick = s.delta_tick := by rw [hdelta]; simp [UNIT_TICK]
      simp only [htick] at h
      cases hrun : runTicks (List.replicate K 200) s2 with
      | none => simp [hrun] at h
      | some r2 =>
        obtain ⟨cs, s3⟩ := r2
        simp only [hrun, Option.some.injEq, Prod.mk.injEq] at h
        obtain ⟨_, rfl⟩ := h
        rw [ih s2 cs (by rw [hs2]; exact hpos) hrun, hs2]


/-- C3, as stated, fails: from the initial session three calls `tick 200`
move the snake twice (the first call only reaches the threshold, it does not
exceed it), while one call `tick 600` moves it once. -/
theorem catch_up_counterexample :
    (runTicks (List.replicate 3 200) initialSession).map (fun r => (r.1, r.2.chain)) =
        some ([true, true, true], [⟨10, 8⟩, ⟨10, 9⟩, ⟨10, 10⟩, ⟨10, 11⟩]) ∧
      (runTicks [3 * 200] initialSession).map (fun r => (r.1, r.2.chain)) =
        some ([true], [⟨10, 9⟩, ⟨10, 10⟩, ⟨10, 11⟩, ⟨10, 12⟩]) := by
  decide

/-- The backlog is worked off by the following calls: `N` calls `tick 200`
do what one call `tick (N * 200)` followed by `N - 1` calls `tick 0` does. -/
theorem runTicks_catch_up (s : Session) (N : Nat) (hN : 1 ≤ N) (hacc : 0 ≤ s.delta_tick) :
    (runTicks (List.replicate N 200) s).map (fun r => (r.1.all id, r.2)) =
      (runTicks (((N : Int) * 200) :: List.replicate (N - 1) 0) s).map
        (fun r => (r.1.all id, r.2)) := by
  obtain ⟨K, rfl⟩ : ∃ K, N = K + 1 := ⟨N - 1, by omega⟩
  have hB : runTicks ((((K + 1 : Nat) : Int) * 200) :: List.replicate (K + 1 - 1) 0) s =
      runTicks (List.replicate (K + 1) 0)
        { s with delta_tick := s.delta_tick + ((K + 1 : Nat) : Int) * 200 } := by
    simp only [Nat.add_sub_cancel, List.replicate_succ, runTicks]
    rw [tick_eq_tick_zero]
  rw [hB]
  rcases hacc.lt_or_eq with hpos | hzero
  · rw [runTicks_backlog (K + 1) s hpos]
  · -- accumulated time 0: the first `tick 200` only reaches the threshold
    have hfirst : tick 200 s = some (true, { s with delta_tick := 200 }) := by
      rw [tick_idle 200 s (by rw [← hzero]; decide)]
      simp [← hzero]
    have hstate : ({ s with delta_tick := s.delta_tick + ((K + 1 : Nat) : Int) * 200 } : Session) =
        { ({ s with delta_tick := 200 } : Session) with
          delta_tick := ({ s with delta_tick := 200 } : Session).delta_tick + (K : Int) * 200 } := by
      simp only [← hzero]; congr 1; push_cast; ring
    have hpos1 : 0 < ({ s with delta_tick := 200 } : Session).delta_tick := by
      show (0 : Int) < 200
      decide
    rw [hstate, List.replicate_succ' (K) (0 : Int), runTicks_append,
      runTicks_backlog K _ hpos1]
    simp only [List.replicate_succ, runTicks, hfirst]
    cases hrun : runTicks (List.replicate K 200) { s with delta_tick := 200 } with
    | none => rfl
    | some r =>
      obtain ⟨bs, s1⟩ := r
      have hd := runTicks_threshold_delta K _ s1 bs hpos1 hrun
      have hlast : tick 0 s1 = some (true, s1) := by
        rw [tick_idle 0 s1 (by rw [hd]; show (200 : Int) + 0 ≤ 200; decide)]
        simp
      simp [hlast, runTicks, Bool.and_comm]

/-- C3, amended.  A call of `tick` performs at most one movement, however
large the elapsed time: it leaves the chain as it was or shifts it by one
cell, and it keeps the remaining time in `delta_tick` (the sum minus 200
after crossing the threshold, the sum otherwise); when the threshold is
crossed and the candidate is free and on the board it moves exactly once.
So the backlog is worked off by the following calls: for a session with
accumulated time `≥ 0` and `N ≥ 1`, `N` calls `tick 200` leave the same
session (chain, accumulated time and all) and the same overall outcome
(every call true, or some call false) as one call `tick (N * 200)` followed
by `N - 1` calls `tick 0`. -/
theorem catch_up_spread (s : Session) (N : Nat) (hN : 1 ≤ N) (hacc : 0 ≤ s.delta_tick) :
    (∀ e b s1, tick e s = some (b, s1) →
        (s1.chain = s.chain ∨
          ∃ p t, s.chain = p :: t ∧ s1.chain = candidate s p :: s.chain.dropLast) ∧
        s1.delta_tick =
          if s.delta_tick + e > 200 then s.delta_tick + e - 200 else s.delta_tick + e) ∧
      (∀ e p t, s.chain = p :: t → s.delta_tick + e > 200 →
        candidate s p ∉ s.chain → onBoard (candidate s p) →
        tick e s =
          some (true,
            { s with
              delta_tick := s.delta_tick + e - 200
              chain := candidate s p :: s.chain.dropLast })) ∧
      (runTicks (List.replicate N 200) s).map (fun r => (r.1.all id, r.2)) =
        (runTicks (((N : Int) * 200) :: List.replicate (N - 1) 0) s).map
          (fun r => (r.1.all id, r.2)) := by
  refine ⟨?_, ?_, runTicks_catch_up s N hN hacc⟩
  · intro e b s1 h
    by_cases hthr : s.delta_tick + e > 200
    · rw [if_pos hthr]
      refine ⟨?_, tick_cross_delta e s s1 b hthr h⟩
      obtain hnil | ⟨p, t, hp⟩ : s.chain = [] ∨ ∃ p t, s.chain = p :: t := by
        cases s.chain <;> simp
      · have hthr1 : s.delta_tick + e > UNIT_TICK := hthr
        simp [tick, hthr1, hnil] at h
      · rw [tick_cross e s p t hp hthr] at h
        by_cases hb : candidate s p ∈ s.chain ∨ ¬ onBoard (candidate s p)
        · rw [if_pos hb] at h
          cases h
          exact Or.inl rfl
        · rw [if_neg hb] at h
          cases h
          exact Or.inr ⟨p, t, hp, rfl⟩
    · rw [if_neg hthr, tick_idle e s (not_lt.mp hthr)] at *
      cases h
      exact ⟨Or.inl rfl, rfl⟩
  · intro e p t hp hthr hfree hboard
    rw [tick_cross e s p t hp hthr, if_neg]
    · rfl
    · rintro (hm | hb)
      · exact hfree hm
      · exact hb hboard

/-- C3 amended, at the initial session with `N = 3`. -/
theorem catch_up_spread_witness :
    (∀ e b s1, tick e initialSession = some (b, s1) →
        (s1.chain = initialSession.chain ∨
          ∃ p t, initialSession.chain = p :: t ∧
            s1.chain = candidate initialSession p :: initialSession.chain.dropLast) ∧
        s1.delta_tick =
          if initialSession.delta_tick + e > 200 then initialSession.delta_tick + e - 200
          else initialSession.delta_tick + e) ∧
      (∀ e p t, initialSession.chain = p :: t → initialSession.delta_tick + e > 200 →
        candidate initialSession p ∉ initialSession.chain →
        onBoard (candidate initialSession p) →
        tick e initialSession =
          some (true,
            { initialSession with
              delta_tick := initialSession.delta_tick + e - 200
              chain := candidate initialSession p :: initialSession.chain.dropLast })) ∧
      (runTicks (List.replicate 3 200) initialSession).map (fun r => (r.1.all id, r.2)) =
        (runTicks ((((3 : Nat) : Int) * 200) :: List.replicate (3 - 1) 0) initialSession).map
          (fun r => (r.1.all id, r.2)) :=
  catch_up_spread initialSession 3 (by decide) (by decide)

/-! ## C4: a call with zero elapsed time -/

/-- C4, as stated, fails: after `tick 500` on the initial session (returns
true, one movement, 300 ms left over) the call `tick 0` moves the snake once
more. -/
theorem tick_zero_counterexample :
    (runTicks [500] initialSession).map (fun r => (r.1, r.2.chain, r.2.delta_tick)) =
        some ([true], [⟨10, 9⟩, ⟨10, 10⟩, ⟨10, 11⟩, ⟨10, 12⟩], 300) ∧
      (runTicks [500, 0] initialSession).map (fun r => (r.1, r.2.chain, r.2.delta_tick)) =
        some ([true, true], [⟨10, 8⟩, ⟨10, 9⟩, ⟨10, 10⟩, ⟨10, 11⟩], 100) := by
  decide

/-- C4, amended.  In every session whose accumulated time is at most 200
(whatever its chain), `tick 0` returns true and leaves the whole session,
the chain included, as it was.  In a session with more than 200 ms
accumulated and a non-empty chain `tick 0` works off the backlog: it takes 200 off the accumulated time
and attempts a movement, returning false with the chain unchanged when the
candidate is on the chain or off the board, and otherwise returning true
with the chain shifted onto the candidate. -/
theorem tick_zero_backlog (s : Session) (p : Position) (t : List Position)
    (hchain : s.chain = p :: t) :
    (∀ s0 : Session, s0.delta_tick ≤ 200 → tick 0 s0 = some (true, s0)) ∧
      (s.delta_tick > 200 →
        tick 0 s =
          if candidate s p ∈ s.chain ∨ ¬ onBoard (candidate s p) then
            some (false, { s with delta_tick := s.delta_tick - 200 })
          else
            some (true,
              { s with
                delta_tick := s.delta_tick - 200
                chain := candidate s p :: s.chain.dropLast })) := by
  have hidle : ∀ s0 : Session, s0.delta_tick ≤ 200 → tick 0 s0 = some (true, s0) := by
    intro s0 hacc
    rw [tick_idle 0 s0 (by simpa [UNIT_TICK] using hacc)]
    simp
  refine ⟨hidle, ?_⟩
  intro hacc
  have hthr : s.delta_tick + 0 > 200 := by simpa using hacc
  rw [tick_cross 0 s p t hchain hthr]
  simp only [add_zero, UNIT_TICK]

/-- C4 amended, at the session left by `tick 500` on the initial session:
with 300 ms accumulated, `tick 0` moves the snake. -/
theorem tick_zero_backlog_witness :
    tick 500 initialSession = some (true, afterLongFrame) ∧
      (∀ s0 : Session, s0.delta_tick ≤ 200 → tick 0 s0 = some (true, s0)) ∧
      (afterLongFrame.delta_tick > 200 →
        tick 0 afterLongFrame =
          if candidate afterLongFrame ⟨10, 9⟩ ∈ afterLongFrame.chain ∨
              ¬ onBoard (candidate afterLongFrame ⟨10, 9⟩) then
            some (false, { afterLongFrame with delta_tick := afterLongFrame.delta_tick - 200 })
          else
            some (true,
              { afterLongFrame with
                delta_tick := afterLongFrame.delta_tick - 200
                chain := candidate afterLongFrame ⟨10, 9⟩ :: afterLongFrame.chain.dropLast })) :=
  ⟨by decide, tick_zero_backlog afterLongFrame ⟨10, 9⟩ [⟨10, 10⟩, ⟨10, 11⟩, ⟨10, 12⟩] rfl⟩

/-! ## Facts about `placeApple`, `eatApple` and the loop pass -/

theorem sample_cons_cons_zero (rx ry : Nat) (draws : List Nat) :
    sample (rx :: ry :: draws) 0 =
      some ⟨(rx : Int) % BOARD_WIDTH, (ry : Int) % BOARD_HEIGHT⟩ := by
  simp [sample]

theorem sample_cons_cons_succ (rx ry : Nat) (draws : List Nat) (j : Nat) :
    sample (rx :: ry :: draws) (j + 1) = sample draws j := by
  have h1 : 2 * (j + 1) = 2 * j + 1 + 1 := by ring
  have h2 : 2 * (j + 1) + 1 = 2 * j + 1 + 1 + 1 := by ring
  simp only [sample, h1, h2, List.getElem?_cons_succ]

/-- What a returning `placeApple` has done: only `apple` changed, and the new
apple is the first sampled cell that is not on the chain; the draws up to and
including that sample are used up. -/
theorem placeApple_some (draws rest : List Nat) (s s1 : Session)
    (h : placeApple draws s = some (s1, rest)) :
    s1 = { s with apple := s1.apple } ∧ s1.apple ∉ s.chain ∧
      ∃ k, sample draws k = some s1.apple ∧
        (∀ j, j < k → ∃ q, sample draws j = some q ∧ q ∈ s.chain) ∧
        rest = draws.drop (2 * (k + 1)) := by
  obtain ⟨n, hn⟩ : ∃ n, draws.length = n := ⟨_, rfl⟩
  induction n using Nat.strong_induction_on generalizing draws s with
  | _ n ih =>
    match draws, hn with
    | [], _ => simp [placeApple] at h
    | [_], _ => simp [placeApple] at h
    | rx :: ry :: more, hn =>
      simp only [placeApple] at h
      by_cases hcol : checkSnakeCollision s.chain
          ⟨(rx : Int) % BOARD_WIDTH, (ry : Int) % BOARD_HEIGHT⟩ = true
      · rw [if_pos hcol] at h
        have hlen : more.length < n := by rw [← hn]; simp only [List.length_cons]; omega
        obtain ⟨h1, h2, k, h3, h4, h5⟩ := ih more.length hlen more _ h rfl
        refine ⟨?_, h2, k + 1, ?_, ?_, ?_⟩
        · rw [h1]
        · rw [sample_cons_cons_succ]; exact h3
        · intro j hj
          cases j with
          | zero =>
            exact ⟨_, sample_cons_cons_zero rx ry more,
              (checkSnakeCollision_iff_mem _ _).mp hcol⟩
          | succ j =>
            rw [sample_cons_cons_succ]
            exact h4 j (by omega)
        · rw [h5]
          have : 2 * (k + 1 + 1) = 2 * (k + 1) + 1 + 1 := by ring
          rw [this]; rfl
      · rw [if_neg hcol] at h
        simp only [Option.some.injEq, Prod.mk.injEq] at h
        obtain ⟨rfl, rfl⟩ := h
        refine ⟨rfl, ?_, 0, sample_cons_cons_zero rx ry _, ?_, rfl⟩
        · have := (checkSnakeCollision_eq_false_iff s.chain
            ⟨(rx : Int) % BOARD_WIDTH, (ry : Int) % BOARD_HEIGHT⟩).mp (by simpa using hcol)
          exact this
        · intro j hj; omega

/-- `placeApple` returns as soon as the draws contain a sampled cell that is
not on the chain. -/
theorem placeApple_returns (draws : List Nat) (s : Session) (k : Nat) (q : Position)
    (hk : sample draws k = some q) (hq : q ∉ s.chain) :
    ∃ s1 rest, placeApple draws s = some (s1, rest) := by
  induction k generalizing draws s with
  | zero =>
    match draws with
    | [] => simp [sample] at hk
    | [_] => simp [sample] at hk
    | rx :: ry :: more =>
      rw [sample_cons_cons_zero] at hk
      cases hk
      have hcol := (checkSnakeCollision_eq_false_iff _ _).mpr hq
      simp only [placeApple]
      rw [if_neg (by simpa using hcol)]
      exact ⟨_, _, rfl⟩
  | succ k ih =>
    match draws with
    | [] => simp [sample] at hk
    | [_] => simp [sample] at hk
    | rx :: ry :: more =>
      rw [sample_cons_cons_succ] at hk
      simp only [placeApple]
      by_cases hcol : checkSnakeCollision s.chain
          ⟨(rx : Int) % BOARD_WIDTH, (ry : Int) % BOARD_HEIGHT⟩ = true
      · rw [if_pos hcol]
        exact ih more _ hk hq
      · rw [if_neg hcol]
        exact ⟨_, _, rfl⟩

/-- `eatApple` on a non-empty chain: the score goes up by one, a copy of the
last segment is appended, and `placeApple` runs on the result. -/
theorem eatApple_eq (draws : List Nat) (s : Session) (hne : s.chain ≠ []) :
    eatApple draws s =
      placeApple draws
        { s with score := s.score + 1, chain := s.chain ++ [s.chain.getLast hne] } := by
  obtain ⟨h, t, hc⟩ : ∃ h t, s.chain = h :: t := by
    cases hs : s.chain with
    | nil => exact absurd hs hne
    | cons h t => exact ⟨h, t, rfl⟩
  have hlast : s.chain.getLast hne = (h :: t).getLast (List.cons_ne_nil _ _) := by
    simp only [hc]
  simp only [eatApple, hc, growTail_eq_append]


theorem handleKey_some (k : Key) (s s1 : Session) (h : handleKey k s = some s1) :
    s1.chain = s.chain ∧ s1.apple = s.apple ∧ s1.score = s.score ∧
      s1.delta_tick = s.delta_tick := by
  cases k <;> simp only [handleKey, Option.some.injEq] at h <;>
    first
    | (subst h; exact ⟨rfl, rfl, rfl, rfl⟩)
    | exact absurd h (by simp)

/-- What a `tick` that returns does to the session: apple, score and
direction are untouched, and the chain is either kept or shifted onto a
free on-board candidate (the latter only when it returns true). -/
theorem tick_some (e : Int) (b : Bool) (s s1 : Session) (h : tick e s = some (b, s1)) :
    s1.apple = s.apple ∧ s1.score = s.score ∧
      s1.direction_x = s.direction_x ∧ s1.direction_y = s.direction_y ∧
      (s1.chain = s.chain ∨
        (b = true ∧ ∃ p t, s.chain = p :: t ∧ candidate s p ∉ s.chain ∧
          onBoard (candidate s p) ∧ s1.chain = candidate s p :: s.chain.dropLast)) := by
  by_cases hthr : s.delta_tick + e > UNIT_TICK
  · obtain hc | ⟨p, t, hc⟩ : s.chain = [] ∨ ∃ p t, s.chain = p :: t := by
      cases s.chain <;> simp
    · simp [tick, hthr, hc] at h
    · rw [tick_cross e s p t hc hthr] at h
      by_cases hb : candidate s p ∈ s.chain ∨ ¬ onBoard (candidate s p)
      · rw [if_pos hb] at h
        cases h
        exact ⟨rfl, rfl, rfl, rfl, Or.inl rfl⟩
      · rw [if_neg hb] at h
        cases h
        push_neg at hb
        exact ⟨rfl, rfl, rfl, rfl, Or.inr ⟨rfl, p, t, hc, hb.1, hb.2, rfl⟩⟩
  · rw [tick_idle e s (not_lt.mp hthr)] at h
    cases h
    exact ⟨rfl, rfl, rfl, rfl, Or.inl rfl⟩

theorem tick_length (e : Int) (b : Bool) (s s1 : Session) (h : tick e s = some (b, s1)) :
    s1.chain.length = s.chain.length := by
  obtain ⟨_, _, _, _, hc | ⟨_, p, t, hc, _, _, hc1⟩⟩ := tick_some e b s s1 h
  · rw [hc]
  · rw [hc1, hc]; simp

/-- The ways a pass of the game loop can go on to the next pass. -/
theorem loopPass_running (key : Key) (delta : Int) (draws rest : List Nat) (s s1 : Session)
    (h : loopPass key delta draws s = Pass.running s1 rest) :
    ∃ sk s2 p t, handleKey key s = some sk ∧ tick delta sk = some (true, s2) ∧
      s2.chain = p :: t ∧
      ((p = s2.apple ∧ eatApple draws s2 = some (s1, rest)) ∨
        (p ≠ s2.apple ∧ s1 = s2 ∧ rest = draws)) := by
  unfold loopPass at h
  cases hk : handleKey key s with
  | none => simp [hk] at h
  | some sk =>
    simp only [hk] at h
    cases ht : tick delta sk with
    | none => simp [ht] at h
    | some r =>
      obtain ⟨b, s2⟩ := r
      cases b with
      | false => simp [ht] at h
      | true =>
        simp only [ht] at h
        obtain hc | ⟨p, t, hc⟩ : s2.chain = [] ∨ ∃ p t, s2.chain = p :: t := by
          cases s2.chain <;> simp
        · simp [hc] at h
        · refine ⟨sk, s2, p, t, rfl, ht, hc, ?_⟩
          simp only [hc] at h
          have happle : checkAppleCollision s2 p = true ↔ p = s2.apple := by
            simp only [checkAppleCollision, decide_eq_true_eq]
            constructor
            · rintro ⟨hx, hy⟩
              cases p; cases hs : s2.apple; simp_all
            · rintro rfl; exact ⟨rfl, rfl⟩
          by_cases hp : p = s2.apple
          · rw [if_pos (happle.mpr hp)] at h
            left
            refine ⟨hp, ?_⟩
            cases he : eatApple draws s2 with
            | none => simp [he] at h
            | some r3 =>
              obtain ⟨s3, d3⟩ := r3
              simp only [he, Pass.running.injEq] at h
              rw [h.1, h.2]
          · rw [if_neg (fun hh => hp (happle.mp hh))] at h
            simp only [Pass.running.injEq] at h
            exact Or.inr ⟨hp, h.1.symm, h.2.symm⟩

theorem tailDup_dropLast_nodup (chain : List Position) (h : TailDup chain) :
    chain.dropLast.Nodup := by
  rcases h with h | ⟨l, p, hl, hn⟩
  · exact h.sublist (List.dropLast_sublist _)
  · have : chain = (l ++ [p]) ++ [p] := by rw [hl]; simp
    rw [this, List.dropLast_concat]
    exact hn

theorem nodup_shift (chain : List Position) (c : Position) (h : TailDup chain)
    (hc : c ∉ chain) : (c :: chain.dropLast).Nodup :=
  List.nodup_cons.mpr
    ⟨fun hm => hc (List.mem_of_mem_dropLast hm), tailDup_dropLast_nodup chain h⟩

theorem tailDup_grow (chain : List Position) (hne : chain ≠ []) (h : chain.Nodup) :
    TailDup (chain ++ [chain.getLast hne]) := by
  right
  have hx := List.dropLast_append_getLast hne
  generalize chain.getLast hne = x at hx ⊢
  refine ⟨chain.dropLast, x, ?_, ?_⟩
  · have hsplit : chain.dropLast ++ [x, x] = (chain.dropLast ++ [x]) ++ [x] := by simp
    rw [hsplit, hx]
  · rw [hx]
    exact h

/-- One pass of the game loop that goes on keeps the loop invariant. -/
theorem loopInv_pass (key : Key) (delta : Int) (draws rest : List Nat) (s s1 : Session)
    (hinv : LoopInv s) (h : loopPass key delta draws s = Pass.running s1 rest) :
    LoopInv s1 := by
  obtain ⟨hne, happle, htail⟩ := hinv
  obtain ⟨sk, s2, p, t, hk, ht, hc2, hcase⟩ := loopPass_running key delta draws rest s s1 h
  obtain ⟨hkc, hka, _, _⟩ := handleKey_some key s sk hk
  obtain ⟨hta, _, _, _, hmove⟩ := tick_some delta true sk s2 ht
  have hne2 : s2.chain ≠ [] := by rw [hc2]; exact List.cons_ne_nil _ _
  -- the session after `tick`: chain non-empty, and either unchanged or freshly shifted
  have h2 : (s2.chain = s.chain) ∨
      (s2.chain.Nodup ∧ ∀ q ∈ s2.chain.tail, q ∈ s.chain) := by
    rcases hmove with hsame | ⟨_, p0, t0, hc0, hfree, _, hnew⟩
    · left; rw [hsame, hkc]
    · right
      rw [hkc] at hfree hnew
      refine ⟨by rw [hnew]; exact nodup_shift s.chain _ htail hfree, ?_⟩
      intro q hq
      rw [hnew] at hq
      exact List.mem_of_mem_dropLast hq
  have happle2 : s2.apple = s.apple := by rw [hta, hka]
  rcases hcase with ⟨hp, heat⟩ | ⟨hp, rfl, _⟩
  · -- the head is on the apple: the chain was shifted, then grown
    rw [eatApple_eq draws s2 hne2] at heat
    obtain ⟨hs1, hfree1, _⟩ := placeApple_some draws rest _ s1 heat
    have hchain1 : s1.chain = s2.chain ++ [s2.chain.getLast hne2] := by rw [hs1]
    have hnodup2 : s2.chain.Nodup := by
      rcases h2 with hsame | ⟨hn, _⟩
      · exfalso
        apply happle
        rw [← hsame, ← happle2, ← hp, hc2]
        exact List.mem_cons_self _ _
      · exact hn
    refine ⟨by rw [hchain1]; simp, ?_, ?_⟩
    · rw [hchain1]; exact hfree1
    · rw [hchain1]; exact tailDup_grow s2.chain hne2 hnodup2
  · -- the head is not on the apple
    refine ⟨hne2, ?_, ?_⟩
    · rcases h2 with hsame | ⟨_, hsub⟩
      · rw [hsame, happle2]; exact happle
      · intro hm
        rw [hc2] at hm hsub
        rcases List.mem_cons.mp hm with heq | htl
        · exact hp heq.symm
        · exact happle (happle2 ▸ hsub _ htl)
    · rcases h2 with hsame | ⟨hn, _⟩
      · rw [hsame]; exact htail
      · exact Or.inl hn

theorem loopInv_start (draws rest : List Nat) (s : Session)
    (h : startSession draws = some (s, rest)) : LoopInv s := by
  obtain ⟨hs, hfree, _⟩ := placeApple_some draws rest initialSession s h
  have hchain : s.chain = initialSession.chain := by rw [hs]
  refine ⟨?_, ?_, ?_⟩
  · rw [hchain]; decide
  · rw [hchain]; exact hfree
  · rw [hchain]; exact Or.inl (by decide)

theorem loopInv_of_reachable (s : Session) (h : Reachable s) : LoopInv s := by
  induction h with
  | start draws rest s hs => exact loopInv_start draws rest s hs
  | pass key delta draws rest s s1 _ _ hp ih => exact loopInv_pass key delta draws rest s s1 ih hp

theorem reachable_afterEating : Reachable afterEating := by
  refine Reachable.pass Key.other 201 [0, 0] [] { initialSession with apple := ⟨10, 9⟩ }
    afterEating (Reachable.start [10, 9] [] _ ?_) (by decide) ?_
  · decide
  · decide

/-! ## C5: distinct positions -/

/-- C5, as stated, fails: with the first apple at `(10, 9)`, one pass of the
game loop (no key, 201 ms) moves the head onto the apple and `eatApple`
appends a copy of the last segment, so the session after that pass holds
`(10, 12)` twice. -/
theorem chain_unique_counterexample :
    startSession [10, 9] = some ({ initialSession with apple := ⟨10, 9⟩ }, []) ∧
      loopPass Key.other 201 [0, 0] { initialSession with apple := ⟨10, 9⟩ } =
        Pass.running afterEating [] ∧
      Reachable afterEating ∧
      afterEating.chain = [⟨10, 9⟩, ⟨10, 10⟩, ⟨10, 11⟩, ⟨10, 12⟩, ⟨10, 12⟩] ∧
      ¬ afterEating.chain.Nodup :=
  ⟨by decide, by decide, reachable_afterEating, rfl, by decide⟩

/-- C5, amended. In every session the game loop reaches while alive, the
positions of the chain are pairwise distinct, except that the last segment
may repeat the position of the one before it (as it does from `eatApple`
until the next movement): the chain is `l ++ [p, p]` with `l ++ [p]`
pairwise distinct. -/
theorem chain_unique_but_tail (s : Session) (h : Reachable s) :
    s.chain.Nodup ∨ ∃ l p, s.chain = l ++ [p, p] ∧ (l ++ [p]).Nodup :=
  (loopInv_of_reachable s h).2.2

/-- C5 amended, at the session after the first apple was eaten. -/
theorem chain_unique_but_tail_witness :
    afterEating.chain.Nodup ∨ ∃ l p, afterEating.chain = l ++ [p, p] ∧ (l ++ [p]).Nodup :=
  chain_unique_but_tail afterEating reachable_afterEating

/-! ## C6: the apple is never on the snake -/

/-- C6. In the session at the entry of the game loop (after `placeApple`) and
after every pass that goes on, the apple differs from the position of every
segment of the chain; `checkSnakeCollision(apple)` is false. -/
theorem apple_off_chain (s : Session) (h : Reachable s) :
    (∀ q ∈ s.chain, q ≠ s.apple) ∧ checkSnakeCollision s.chain s.apple = false := by
  have hfree := (loopInv_of_reachable s h).2.1
  exact ⟨fun q hq heq => hfree (heq ▸ hq), (checkSnakeCollision_eq_false_iff _ _).mpr hfree⟩

/-- C6 at the entry of the game loop with the apple drawn at `(10, 9)`. -/
theorem apple_off_chain_witness :
    (∀ q ∈ ({ initialSession with apple := ⟨10, 9⟩ } : Session).chain,
        q ≠ ({ initialSession with apple := ⟨10, 9⟩ } : Session).apple) ∧
      checkSnakeCollision ({ initialSession with apple := ⟨10, 9⟩ } : Session).chain
        ({ initialSession with apple := ⟨10, 9⟩ } : Session).apple = false :=
  apple_off_chain { initialSession with apple := ⟨10, 9⟩ }
    (Reachable.start [10, 9] [] _ (by decide))

/-! ## C7 and C8: score, length and growth -/

theorem placeApple_frame (draws rest : List Nat) (s s1 : Session)
    (h : placeApple draws s = some (s1, rest)) :
    s1.chain = s.chain ∧ s1.score = s.score ∧ s1.direction_x = s.direction_x ∧
      s1.direction_y = s.direction_y ∧ s1.delta_tick = s.delta_tick := by
  obtain ⟨hs, _, _⟩ := placeApple_some draws rest s s1 h
  rw [hs]
  exact ⟨rfl, rfl, rfl, rfl, rfl⟩

theorem eatApple_some (draws rest : List Nat) (s s1 : Session)
    (h : eatApple draws s = some (s1, rest)) :
    ∃ hne : s.chain ≠ [], s1.chain = s.chain ++ [s.chain.getLast hne] ∧
      s1.score = s.score + 1 ∧ s1.direction_x = s.direction_x ∧
      s1.direction_y = s.direction_y ∧ s1.delta_tick = s.delta_tick := by
  have hne : s.chain ≠ [] := by
    intro hnil
    simp [eatApple, hnil] at h
  rw [eatApple_eq draws s hne] at h
  obtain ⟨h1, h2, h3, h4, h5⟩ := placeApple_frame draws rest _ s1 h
  exact ⟨hne, h1, h2, h3, h4, h5⟩

/-- C7. The initial session has chain length 4 and score 4, and in every
session reached from it by calls of `tick` and `eatApple` (and of the key
handler and `placeApple`) the score equals the number of segments; hence the
score is at least 4, and the length never decreases: `tick` keeps length and
score, `eatApple` adds one to both. -/
theorem score_length_lockstep (s : Session) (h : CallReachable s) :
    initialSession.chain.length = 4 ∧ initialSession.score = 4 ∧
      s.score = s.chain.length ∧ 4 ≤ s.score ∧
      (∀ e b s1, tick e s = some (b, s1) →
        s1.chain.length = s.chain.length ∧ s1.score = s.score) ∧
      (∀ draws rest s1, eatApple draws s = some (s1, rest) →
        s1.chain.length = s.chain.length + 1 ∧ s1.score = s.score + 1) := by
  have hinv : s.score = s.chain.length ∧ 4 ≤ s.score := by
    induction h with
    | init => decide
    | key k s s1 _ hk ih =>
      obtain ⟨hc, _, hsc, _⟩ := handleKey_some k s s1 hk
      rw [hc, hsc]; exact ih
    | tick e b s s1 _ ht ih =>
      obtain ⟨_, hsc, _, _, _⟩ := tick_some e b s s1 ht
      rw [tick_length e b s s1 ht, hsc]; exact ih
    | eat draws rest s s1 _ he ih =>
      obtain ⟨hne, hc, hsc, _⟩ := eatApple_some draws rest s s1 he
      rw [hc, hsc, List.length_append, List.length_singleton]
      refine ⟨?_, by omega⟩
      rw [ih.1]; push_cast; ring
    | place draws rest s s1 _ hp ih =>
      obtain ⟨hc, hsc, _⟩ := placeApple_frame draws rest s s1 hp
      rw [hc, hsc]; exact ih
  refine ⟨by decide, by decide, hinv.1, hinv.2, ?_, ?_⟩
  · intro e b s1 ht
    exact ⟨tick_length e b s s1 ht, (tick_some e b s s1 ht).2.1⟩
  · intro draws rest s1 he
    obtain ⟨hne, hc, hsc, _⟩ := eatApple_some draws rest s s1 he
    exact ⟨by rw [hc]; simp, hsc⟩

/-- C7 at the session left by `tick 201` and then `eatApple` (draws `0, 0`)
on the initial session. -/
theorem score_length_lockstep_witness :
    initialSession.chain.length = 4 ∧ initialSession.score = 4 ∧
      afterEating.score = afterEating.chain.length ∧ 4 ≤ afterEating.score ∧
      (∀ e b s1, tick e afterEating = some (b, s1) →
        s1.chain.length = afterEating.chain.length ∧ s1.score = afterEating.score) ∧
      (∀ draws rest s1, eatApple draws afterEating = some (s1, rest) →
        s1.chain.length = afterEating.chain.length + 1 ∧ s1.score = afterEating.score + 1) :=
  score_length_lockstep afterEating
    (CallReachable.eat [0, 0] []
      { initialSession with
        chain := [⟨10, 9⟩, ⟨10, 10⟩, ⟨10, 11⟩, ⟨10, 12⟩], delta_tick := 1 } _
      (CallReachable.tick 201 true _ _ CallReachable.init (by decide)) (by decide))

/-- C8. On a non-empty chain `p0 :: rest` with score `s`, a returning
`eatApple` leaves the chain `p0 :: rest ++ [last]`, where `last` is the
position of the previous tail, and the score `s + 1`: one segment more, every
old segment at its index with its position, the new tail equal to the old
tail; direction and accumulated time are unchanged. -/
theorem eatApple_grows (s s1 : Session) (p0 : Position) (rest : List Position)
    (draws left : List Nat) (hchain : s.chain = p0 :: rest)
    (h : eatApple draws s = some (s1, left)) :
    s1.chain = (p0 :: rest) ++ [(p0 :: rest).getLast (List.cons_ne_nil p0 rest)] ∧
      s1.score = s.score + 1 ∧
      s1.chain.length = s.chain.length + 1 ∧
      (∀ i, i < s.chain.length → s1.chain[i]? = s.chain[i]?) ∧
      s1.chain.getLast? = s.chain.getLast? ∧
      s1.direction_x = s.direction_x ∧ s1.direction_y = s.direction_y ∧
      s1.delta_tick = s.delta_tick := by
  obtain ⟨hne, hc, hsc, hdx, hdy, hdt⟩ := eatApple_some draws left s s1 h
  have hlast : s.chain.getLast hne = (p0 :: rest).getLast (List.cons_ne_nil p0 rest) := by
    simp only [hchain]
  refine ⟨?_, hsc, ?_, ?_, ?_, hdx, hdy, hdt⟩
  · rw [hc, hlast, hchain]
  · rw [hc]; simp
  · intro i hi
    rw [hc, List.getElem?_append_left hi]
  · rw [hc, List.getLast?_append, List.getLast?_singleton, List.getLast?_eq_getLast _ hne]
    rfl

/-- C8 at the initial session with the draws `0, 0`. -/
theorem eatApple_grows_witness :
    ({ initialSession with
        chain := [⟨10, 10⟩, ⟨10, 11⟩, ⟨10, 12⟩, ⟨10, 13⟩, ⟨10, 13⟩], score := 5 } :
        Session).chain =
        ((⟨10, 10⟩ : Position) :: [⟨10, 11⟩, ⟨10, 12⟩, ⟨10, 13⟩]) ++
          [((⟨10, 10⟩ : Position) :: [⟨10, 11⟩, ⟨10, 12⟩, ⟨10, 13⟩]).getLast
            (List.cons_ne_nil _ _)] ∧
      (5 : Int) = initialSession.score + 1 ∧
      5 = initialSession.chain.length + 1 ∧
      (∀ i, i < initialSession.chain.length →
        [(⟨10, 10⟩ : Position), ⟨10, 11⟩, ⟨10, 12⟩, ⟨10, 13⟩, ⟨10, 13⟩][i]? =
          initialSession.chain[i]?) ∧
      [(⟨10, 10⟩ : Position), ⟨10, 11⟩, ⟨10, 12⟩, ⟨10, 13⟩, ⟨10, 13⟩].getLast? =
        initialSession.chain.getLast? ∧
      (0 : Int) = initialSession.direction_x ∧ (-1 : Int) = initialSession.direction_y ∧
      (0 : Int) = initialSession.delta_tick :=
  eatApple_grows initialSession
    { initialSession with
      chain := [⟨10, 10⟩, ⟨10, 11⟩, ⟨10, 12⟩, ⟨10, 13⟩, ⟨10, 13⟩], score := 5 }
    ⟨10, 10⟩ [⟨10, 11⟩, ⟨10, 12⟩, ⟨10, 13⟩] [0, 0] [] (by decide) (by decide)

/-! ## C9: where `placeApple` puts the apple -/

theorem sample_onBoard (draws : List Nat) (k : Nat) (q : Position)
    (h : sample draws k = some q) : onBoard q := by
  unfold sample at h
  split at h
  · cases h
    refine ⟨?_, ?_, ?_, ?_⟩
    · exact Int.emod_nonneg _ (by decide)
    · exact Int.emod_lt_of_pos _ (by decide)
    · exact Int.emod_nonneg _ (by decide)
    · exact Int.emod_lt_of_pos _ (by decide)
  · cases h

/-- C9. When `placeApple` returns, the apple it leaves has `0 ≤ x < 20` and
`0 ≤ y < 20`, `checkSnakeCollision(apple)` is false against the whole chain,
the chain is unchanged, and the apple is the first sampled cell
`(draw % 20, draw % 20)` that is not on the chain: every earlier sample was
on it. -/
theorem placeApple_result (draws left : List Nat) (s s1 : Session)
    (h : placeApple draws s = some (s1, left)) :
    (0 ≤ s1.apple.x ∧ s1.apple.x < 20 ∧ 0 ≤ s1.apple.y ∧ s1.apple.y < 20) ∧
      checkSnakeCollision s1.chain s1.apple = false ∧
      (∀ q ∈ s1.chain, q ≠ s1.apple) ∧
      s1.chain = s.chain ∧
      ∃ k, sample draws k = some s1.apple ∧
        ∀ j, j < k → ∃ q, sample draws j = some q ∧ checkSnakeCollision s.chain q = true := by
  obtain ⟨hs, hfree, k, hk, hbefore, _⟩ := placeApple_some draws left s s1 h
  have hc : s1.chain = s.chain := by rw [hs]
  refine ⟨sample_onBoard draws k _ hk, ?_, ?_, hc, k, hk, ?_⟩
  · rw [hc]; exact (checkSnakeCollision_eq_false_iff _ _).mpr hfree
  · rw [hc]; exact fun q hq heq => hfree (heq ▸ hq)
  · intro j hj
    obtain ⟨q, hq, hmem⟩ := hbefore j hj
    exact ⟨q, hq, (checkSnakeCollision_iff_mem _ _).mpr hmem⟩

/-- C9 at the initial session: the first sample `(10, 11)` is on the snake,
the second, `(3, 7)`, is not. -/
theorem placeApple_result_witness :
    (0 ≤ (⟨3, 7⟩ : Position).x ∧ (⟨3, 7⟩ : Position).x < 20 ∧
        0 ≤ (⟨3, 7⟩ : Position).y ∧ (⟨3, 7⟩ : Position).y < 20) ∧
      checkSnakeCollision initialSession.chain ⟨3, 7⟩ = false ∧
      (∀ q ∈ initialSession.chain, q ≠ (⟨3, 7⟩ : Position)) ∧
      initialSession.chain = initialSession.chain ∧
      ∃ k, sample [30, 51, 23, 407, 5] k = some ⟨3, 7⟩ ∧
        ∀ j, j < k → ∃ q, sample [30, 51, 23, 407, 5] j = some q ∧
          checkSnakeCollision initialSession.chain q = true :=
  placeApple_result [30, 51, 23, 407, 5] [5] initialSession
    { initialSession with apple := ⟨3, 7⟩ } (by decide)

/-! ## C10: does `placeApple` return? -/

theorem mem_fullBoard_iff (p : Position) : p ∈ fullBoard ↔ onBoard p := by
  have hrow : ∀ (y x : Nat), x ∈ (if y % 2 = 0 then List.range 20 else (List.range 20).reverse)
      ↔ x < 20 := by
    intro y x
    by_cases hpar : y % 2 = 0
    · simp [hpar]
    · simp [hpar]
  unfold fullBoard onBoard
  simp only [List.mem_flatMap, List.mem_map, hrow, List.mem_range, BOARD_WIDTH, BOARD_HEIGHT,
    Int.ofNat_eq_coe]
  constructor
  · rintro ⟨y, hy, x, hx, rfl⟩
    refine ⟨?_, ?_, ?_, ?_⟩ <;> simp only <;> omega
  · rintro ⟨hx0, hx1, hy0, hy1⟩
    refine ⟨p.y.toNat, by omega, p.x.toNat, by omega, ?_⟩
    cases p with
    | mk px py =>
      simp only at hx0 hy0 ⊢
      rw [Int.toNat_of_nonneg hx0, Int.toNat_of_nonneg hy0]

/-- On a chain that covers the board `placeApple` never returns, whatever the
draws. -/
theorem placeApple_none_of_covered (draws : List Nat) (s : Session)
    (hcover : ∀ p, onBoard p → p ∈ s.chain) : placeApple draws s = none := by
  cases h : placeApple draws s with
  | none => rfl
  | some r =>
    obtain ⟨s1, left⟩ := r
    obtain ⟨_, hfree, k, hk, _⟩ := placeApple_some draws left s s1 h
    exact absurd (hcover _ (sample_onBoard draws k _ hk)) hfree

/-- C11. `checkSnakeCollision(p)` is true exactly when some segment of the
chain has both coordinates equal to those of `p`; so it is true for each
position of the chain and false for every position no segment holds.  It is
a function of the chain and the position alone and returns only the flag:
nothing is modified. -/
theorem checkSnakeCollision_spec (chain : List Position) (p : Position) :
    (checkSnakeCollision chain p = true ↔ ∃ q ∈ chain, q.x = p.x ∧ q.y = p.y) ∧
      (∀ q ∈ chain, checkSnakeCollision chain q = true) ∧
      ((∀ q ∈ chain, ¬ (q.x = p.x ∧ q.y = p.y)) → checkSnakeCollision chain p = false) := by
  have hiff : checkSnakeCollision chain p = true ↔ ∃ q ∈ chain, q.x = p.x ∧ q.y = p.y := by
    rw [checkSnakeCollision_iff_mem]
    constructor
    · intro hm
      exact ⟨p, hm, rfl, rfl⟩
    · rintro ⟨q, hq, hx, hy⟩
      have hqp : q = p := by
        cases q; cases p; simp_all
      exact hqp ▸ hq
  refine ⟨hiff, ?_, ?_⟩
  · intro q hq
    exact (checkSnakeCollision_iff_mem chain q).mpr hq
  · intro hno
    cases hc : checkSnakeCollision chain p with
    | false => rfl
    | true =>
      obtain ⟨q, hq, hxy⟩ := hiff.mp hc
      exact absurd hxy (hno q hq)

/-! ## C12: the snake stays on the board -/

theorem callReachable_onBoard (s : Session) (h : CallReachable s) :
    ∀ q ∈ s.chain, onBoard q := by
  induction h with
  | init => decide
  | key k s s1 _ hk ih =>
    rw [(handleKey_some k s s1 hk).1]; exact ih
  | tick e b s s1 _ ht ih =>
    obtain ⟨_, _, _, _, hc | ⟨_, p, t, _, _, hboard, hc1⟩⟩ := tick_some e b s s1 ht
    · rw [hc]; exact ih
    · intro q hq
      rw [hc1] at hq
      rcases List.mem_cons.mp hq with rfl | hq
      · exact hboard
      · exact ih q (List.mem_of_mem_dropLast hq)
  | eat draws rest s s1 _ he ih =>
    obtain ⟨hne, hc, _⟩ := eatApple_some draws rest s s1 he
    intro q hq
    rw [hc] at hq
    rcases List.mem_append.mp hq with hq | hq
    · exact ih q hq
    · rw [List.mem_singleton] at hq
      rw [hq]
      exact ih _ (List.getLast_mem hne)
  | place draws rest s s1 _ hp ih =>
    rw [(placeApple_frame draws rest s s1 hp).1]; exact ih

theorem callReachable_afterEating : CallReachable afterEating :=
  CallReachable.eat [0, 0] []
    { initialSession with
      chain := [⟨10, 9⟩, ⟨10, 10⟩, ⟨10, 11⟩, ⟨10, 12⟩], delta_tick := 1 } _
    (CallReachable.tick 201 true _ _ CallReachable.init (by decide)) (by decide)

/-- C12. In every session reached from the initial session by any sequence
of direction changes, `tick` calls and `eatApple` calls, every segment
position `(x, y)` of the chain has `0 ≤ x < 20` and `0 ≤ y < 20`. -/
theorem chain_on_board (s : Session) (h : CallReachable s) :
    ∀ q ∈ s.chain, 0 ≤ q.x ∧ q.x < 20 ∧ 0 ≤ q.y ∧ q.y < 20 :=
  callReachable_onBoard s h

/-- C12 at the session after the first apple was eaten. -/
theorem chain_on_board_witness :
    CallReachable afterEating ∧
      ∀ q ∈ afterEating.chain, 0 ≤ q.x ∧ q.x < 20 ∧ 0 ≤ q.y ∧ q.y < 20 :=
  ⟨callReachable_afterEating, chain_on_board afterEating callReachable_afterEating⟩

/-! ## C13: reversing into the body -/

/-- C13. On a chain with at least two segments, when the direction makes
`head + direction` the position of the second segment, every `tick` whose
accumulated time plus elapsed time exceeds 200 returns false.  In particular
the initial session (direction up, body below the head) with the direction
overwritten by the down key dies at the next threshold-crossing tick. -/
theorem reversal_is_fatal (s : Session) (p0 p1 : Position) (rest : List Position)
    (elapsed : Int) (hchain : s.chain = p0 :: p1 :: rest)
    (hrev : candidate s p0 = p1) (hthr : s.delta_tick + elapsed > 200) :
    (∃ s1, tick elapsed s = some (false, s1)) ∧
      ∀ (sd : Session) (e : Int), handleKey Key.down initialSession = some sd →
        sd.delta_tick + e > 200 → ∃ s1, tick e sd = some (false, s1) := by
  have hgen : ∀ (s : Session) (p0 p1 : Position) (rest : List Position) (elapsed : Int),
      s.chain = p0 :: p1 :: rest → candidate s p0 = p1 → s.delta_tick + elapsed > 200 →
      ∃ s1, tick elapsed s = some (false, s1) := by
    intro s p0 p1 rest elapsed hchain hrev hthr
    rw [tick_cross elapsed s p0 (p1 :: rest) hchain hthr]
    have hmem : candidate s p0 ∈ s.chain := by
      rw [hchain, hrev]; simp
    rw [if_pos (Or.inl hmem)]
    exact ⟨_, rfl⟩
  refine ⟨hgen s p0 p1 rest elapsed hchain hrev hthr, ?_⟩
  intro sd e hsd he
  simp only [handleKey, Option.some.injEq] at hsd
  subst hsd
  exact hgen _ ⟨10, 10⟩ ⟨10, 11⟩ [⟨10, 12⟩, ⟨10, 13⟩] e (by decide) (by decide) he

/-- C13 at the initial session turned downwards, with 201 ms elapsed. -/
theorem reversal_is_fatal_witness :
    (∃ s1, tick 201 { initialSession with direction_x := 0, direction_y := 1 } =
        some (false, s1)) ∧
      ∀ (sd : Session) (e : Int), handleKey Key.down initialSession = some sd →
        sd.delta_tick + e > 200 → ∃ s1, tick e sd = some (false, s1) :=
  reversal_is_fatal { initialSession with direction_x := 0, direction_y := 1 }
    ⟨10, 10⟩ ⟨10, 11⟩ [⟨10, 12⟩, ⟨10, 13⟩] 201 (by decide) (by decide) (by decide)

/-! ## C14: running into the top wall -/

/-- With the head in row 0 and the direction pointing up, a tick that crosses
the threshold returns false. -/
theorem tick_top_wall (s : Session) (p : Position) (rest : List Position) (e : Int)
    (hchain : s.chain = p :: rest) (hy : p.y = 0) (hdir : s.direction_y = -1)
    (hthr : s.delta_tick + e > 200) :
    tick e s = some (false, { s with delta_tick := s.delta_tick + e - UNIT_TICK }) := by
  rw [tick_cross e s p rest hchain hthr]
  have hoff : ¬ onBoard (candidate s p) := by
    intro hb
    have h3 := hb.2.2.1
    simp only [candidate, hy, hdir] at h3
    omega
  rw [if_pos (Or.inr hoff)]

/-- The snake in a straight column, heading up, climbs one row per
threshold-crossing tick as long as there is a row above it. -/
theorem runTicks_climb (ds more : List Int) (s : Session) (y : Int)
    (hchain : s.chain = upColumn y) (hdx : s.direction_x = 0) (hdy : s.direction_y = -1)
    (hroom : (ds.length : Int) ≤ y) (hy : y ≤ 16)
    (hcross : crossesAll s.delta_tick (ds ++ more) = true) :
    ∃ s1, runTicks ds s = some (List.replicate ds.length true, s1) ∧
      s1.chain = upColumn (y - ds.length) ∧ s1.direction_x = 0 ∧ s1.direction_y = -1 ∧
      crossesAll s1.delta_tick more = true := by
  induction ds generalizing s y with
  | nil =>
    refine ⟨s, rfl, ?_, hdx, hdy, hcross⟩
    simp [hchain]
  | cons d ds ih =>
    simp only [List.cons_append, crossesAll, Bool.and_eq_true, decide_eq_true_eq] at hcross
    obtain ⟨hthr, hcross1⟩ := hcross
    simp only [List.length_cons, Nat.cast_add, Nat.cast_one] at hroom
    have hlen0 : (0 : Int) ≤ (ds.length : Int) := Int.ofNat_nonneg _
    have hcand : candidate s ⟨10, y⟩ = ⟨10, y - 1⟩ := by
      simp only [candidate, hdx, hdy]
      congr 1
    have hfree : ¬ (candidate s ⟨10, y⟩ ∈ s.chain ∨ ¬ onBoard (candidate s ⟨10, y⟩)) := by
      rw [hcand, hchain]
      simp only [upColumn, List.mem_cons, Position.mk.injEq, true_and, List.mem_nil_iff,
        or_false, onBoard, BOARD_WIDTH, BOARD_HEIGHT, not_or, not_not]
      omega
    have htick := tick_cross d s ⟨10, y⟩ [⟨10, y + 1⟩, ⟨10, y + 2⟩, ⟨10, y + 3⟩]
      (by rw [hchain]; rfl) hthr
    rw [if_neg hfree] at htick
    have hnew : (candidate s ⟨10, y⟩ :: s.chain.dropLast) = upColumn (y - 1) := by
      rw [hcand, hchain]
      simp only [upColumn, List.dropLast, List.cons.injEq, Position.mk.injEq, true_and,
        and_true]
      omega
    rw [hnew] at htick
    obtain ⟨s1, hrun, hc1, hdx1, hdy1, hmore⟩ :=
      ih { s with delta_tick := s.delta_tick + d - UNIT_TICK, chain := upColumn (y - 1) }
        (y - 1) rfl hdx hdy (by omega) (by omega) hcross1
    refine ⟨s1, ?_, ?_, hdx1, hdy1, hmore⟩
    · simp only [runTicks, htick, hrun, List.length_cons, List.replicate_succ]
    · rw [hc1]
      congr 1
      simp only [List.length_cons, Nat.cast_add, Nat.cast_one]
      ring

/-- C14. From the initial session (20x20 board, chain
`(10,10),(10,11),(10,12),(10,13)`, direction up, accumulated time 0), with
no direction change and no apple eaten, of eleven successive `tick` calls
that each cross the threshold the first ten return true and bring the head
to `(10, 0)`, and the eleventh, whose candidate has `y = -1`, returns false.
More generally, a threshold-crossing `tick` with the head in row 0 and the
direction pointing up returns false. -/
theorem wall_scenario (ds : List Int) (hlen : ds.length = 11)
    (hcross : crossesAll initialSession.delta_tick ds = true) :
    (∃ s10 s11, runTicks (ds.take 10) initialSession = some (List.replicate 10 true, s10) ∧
        s10.chain = [⟨10, 0⟩, ⟨10, 1⟩, ⟨10, 2⟩, ⟨10, 3⟩] ∧
        runTicks ds initialSession = some (List.replicate 10 true ++ [false], s11) ∧
        s11.chain = s10.chain) ∧
      ∀ (s : Session) (p : Position) (rest : List Position) (e : Int),
        s.chain = p :: rest → p.y = 0 → s.direction_y = -1 → s.delta_tick + e > 200 →
        ∃ s1, tick e s = some (false, s1) := by
  refine ⟨?_, fun s p rest e hc hy hd ht => ⟨_, tick_top_wall s p rest e hc hy hd ht⟩⟩
  have hsplit : ds = ds.take 10 ++ ds.drop 10 := (List.take_append_drop 10 ds).symm
  have hlen10 : (ds.take 10).length = 10 := by rw [List.length_take, hlen]; rfl
  obtain ⟨d, hd⟩ : ∃ d, ds.drop 10 = [d] := by
    have hl : (ds.drop 10).length = 1 := by rw [List.length_drop, hlen]
    match hdrop : ds.drop 10, hl with
    | [d], _ => exact ⟨d, rfl⟩
  rw [hd] at hsplit
  have hcross1 : crossesAll initialSession.delta_tick (ds.take 10 ++ [d]) = true := by
    rw [← hsplit]; exact hcross
  obtain ⟨s10, hrun, hc10, hdx, hdy, hlast⟩ :=
    runTicks_climb (ds.take 10) [d] initialSession 10 (by decide) (by decide) (by decide)
      (by rw [hlen10]; decide) (by decide) hcross1
  rw [hlen10] at hrun hc10
  have hchain10 : s10.chain = [⟨10, 0⟩, ⟨10, 1⟩, ⟨10, 2⟩, ⟨10, 3⟩] := by
    rw [hc10]; decide
  simp only [crossesAll, Bool.and_true, decide_eq_true_eq] at hlast
  have htick := tick_top_wall s10 ⟨10, 0⟩ [⟨10, 1⟩, ⟨10, 2⟩, ⟨10, 3⟩] d hchain10 rfl hdy hlast
  refine ⟨s10, { s10 with delta_tick := s10.delta_tick + d - UNIT_TICK }, hrun, hchain10, ?_,
    rfl⟩
  rw [hsplit, runTicks_append, hrun]
  simp [runTicks, htick]

/-- C14 with 201 ms elapsed at each of the eleven calls. -/
theorem wall_scenario_witness :
    (∃ s10 s11, runTicks ((List.replicate 11 (201 : Int)).take 10) initialSession =
          some (List.replicate 10 true, s10) ∧
        s10.chain = [⟨10, 0⟩, ⟨10, 1⟩, ⟨10, 2⟩, ⟨10, 3⟩] ∧
        runTicks (List.replicate 11 (201 : Int)) initialSession =
          some (List.replicate 10 true ++ [false], s11) ∧
        s11.chain = s10.chain) ∧
      ∀ (s : Session) (p : Position) (rest : List Position) (e : Int),
        s.chain = p :: rest → p.y = 0 → s.direction_y = -1 → s.delta_tick + e > 200 →
        ∃ s1, tick e s = some (false, s1) :=
  wall_scenario (List.replicate 11 201) (by decide) (by decide)

/-! ## C16: after a fatal tick -/

/-- C16, as stated, fails: `tick` keeps no record of having returned false.
In the initial session turned downwards `tick 201` returns false and leaves
1 ms accumulated, and then `tick 0` returns true; and after the direction is
set back to up, `tick 201` returns true and moves the snake. -/
theorem dead_not_terminal_counterexample :
    (runTicks [201, 0] { initialSession with direction_y := 1 }).map (fun r => r.1) =
        some [false, true] ∧
      ((tick 201 { initialSession with direction_y := 1 }).bind fun r =>
          (handleKey Key.up r.2).bind fun sk =>
            (tick 201 sk).map fun q => (r.1, q.1, q.2.chain)) =
        some (false, true, [⟨10, 9⟩, ⟨10, 10⟩, ⟨10, 11⟩, ⟨10, 12⟩]) := by
  decide

/-- C16, amended. A `tick` that returns false leaves chain and direction as
they were, so without a direction change a later `tick` returns false again
exactly when it crosses the threshold, and true (without moving) when it
does not; and the pass of the game loop in which `tick` returned false ends
the loop, so `game_loop` never calls `tick` again. -/
theorem dead_again (s s1 : Session) (e1 : Int) (h : tick e1 s = some (false, s1)) :
    s1.chain = s.chain ∧ s1.direction_x = s.direction_x ∧ s1.direction_y = s.direction_y ∧
      (∀ e2, s1.delta_tick + e2 > 200 → ∃ s2, tick e2 s1 = some (false, s2)) ∧
      (∀ e2, s1.delta_tick + e2 ≤ 200 →
        tick e2 s1 = some (true, { s1 with delta_tick := s1.delta_tick + e2 })) ∧
      (∀ key s0 draws, handleKey key s0 = some s → loopPass key e1 draws s0 = Pass.dead s1) := by
  obtain ⟨_, _, hdx, hdy, hc | ⟨hb, _⟩⟩ := tick_some e1 false s s1 h
  · have hthr1 : s.delta_tick + e1 > UNIT_TICK := by
      by_contra hle
      rw [tick_idle e1 s (not_lt.mp hle)] at h
      cases h
    obtain hnil | ⟨p, t, hp⟩ : s.chain = [] ∨ ∃ p t, s.chain = p :: t := by
      cases s.chain <;> simp
    · simp [tick, hthr1, hnil] at h
    · have hblocked : candidate s p ∈ s.chain ∨ ¬ onBoard (candidate s p) := by
        by_contra hfree
        rw [tick_cross e1 s p t hp hthr1, if_neg hfree] at h
        cases h
      refine ⟨hc, hdx, hdy, ?_, ?_, ?_⟩
      · intro e2 he2
        have hp1 : s1.chain = p :: t := by rw [hc, hp]
        have hcand : candidate s1 p = candidate s p := by
          simp only [candidate, hdx, hdy]
        rw [tick_cross e2 s1 p t hp1 he2, hcand, hc, if_pos hblocked]
        exact ⟨_, rfl⟩
      · intro e2 he2
        exact tick_idle e2 s1 he2
      · intro key s0 draws hk
        simp only [loopPass, hk, h]
  · cases hb

/-- C16 amended, at the initial session turned downwards. -/
theorem dead_again_witness :
    ({ initialSession with direction_y := 1, delta_tick := 1 } : Session).chain =
        ({ initialSession with direction_y := 1 } : Session).chain ∧
      ({ initialSession with direction_y := 1, delta_tick := 1 } : Session).direction_x =
        ({ initialSession with direction_y := 1 } : Session).direction_x ∧
      ({ initialSession with direction_y := 1, delta_tick := 1 } : Session).direction_y =
        ({ initialSession with direction_y := 1 } : Session).direction_y ∧
      (∀ e2, ({ initialSession with direction_y := 1, delta_tick := 1 } : Session).delta_tick
          + e2 > 200 →
        ∃ s2, tick e2 { initialSession with direction_y := 1, delta_tick := 1 } =
          some (false, s2)) ∧
      (∀ e2, ({ initialSession with direction_y := 1, delta_tick := 1 } : Session).delta_tick
          + e2 ≤ 200 →
        tick e2 { initialSession with direction_y := 1, delta_tick := 1 } =
          some (true, { ({ initialSession with direction_y := 1, delta_tick := 1 } : Session)
            with delta_tick :=
              ({ initialSession with direction_y := 1, delta_tick := 1 } : Session).delta_tick
                + e2 })) ∧
      (∀ key s0 draws, handleKey key s0 = some { initialSession with direction_y := 1 } →
        loopPass key 201 draws s0 =
          Pass.dead { initialSession with direction_y := 1, delta_tick := 1 }) :=
  dead_again { initialSession with direction_y := 1 }
    { initialSession with direction_y := 1, delta_tick := 1 } 201 (by decide)

/-! ## C17: what `tick` leaves alone -/

/-- C17. For every session and `elapsed ≥ 0`, `tick elapsed` leaves
direction, score and apple unchanged, and leaves the chain unchanged whenever
it returns false or the accumulated time plus `elapsed` is at most 200.  When
that sum is at most 200 (200 itself included) it returns true and the new
accumulated time is the sum; otherwise the new accumulated time is the sum
minus 200.  On a non-empty chain `tick` always returns. -/
theorem tick_frame (s : Session) (elapsed : Int) (helapsed : 0 ≤ elapsed) :
    (∀ b s1, tick elapsed s = some (b, s1) →
        s1.direction_x = s.direction_x ∧ s1.direction_y = s.direction_y ∧
        s1.score = s.score ∧ s1.apple = s.apple ∧
        ((b = false ∨ s.delta_tick + elapsed ≤ 200) → s1.chain = s.chain) ∧
        (s.delta_tick + elapsed ≤ 200 → b = true ∧ s1.delta_tick = s.delta_tick + elapsed) ∧
        (s.delta_tick + elapsed > 200 → s1.delta_tick = s.delta_tick + elapsed - 200)) ∧
      (s.delta_tick + elapsed ≤ 200 →
        tick elapsed s = some (true, { s with delta_tick := s.delta_tick + elapsed })) ∧
      (s.chain ≠ [] → ∃ b s1, tick elapsed s = some (b, s1)) := by
  have _ := helapsed
  refine ⟨?_, fun hle => tick_idle elapsed s hle, ?_⟩
  · intro b s1 h
    obtain ⟨ha, hsc, hdx, hdy, hmove⟩ := tick_some elapsed b s s1 h
    refine ⟨hdx, hdy, hsc, ha, ?_, ?_, ?_⟩
    · rintro (hb | hle)
      · rcases hmove with hc | ⟨hb1, _⟩
        · exact hc
        · rw [hb] at hb1; cases hb1
      · rw [tick_idle elapsed s hle] at h
        cases h; rfl
    · intro hle
      rw [tick_idle elapsed s hle] at h
      cases h
      exact ⟨rfl, rfl⟩
    · intro hgt
      exact tick_cross_delta elapsed s s1 b hgt h
  · intro hne
    by_cases hthr : s.delta_tick + elapsed > UNIT_TICK
    · obtain ⟨p, t, hp⟩ : ∃ p t, s.chain = p :: t := by
        cases hs : s.chain with
        | nil => exact absurd hs hne
        | cons p t => exact ⟨p, t, rfl⟩
      rw [tick_cross elapsed s p t hp hthr]
      by_cases hb : candidate s p ∈ s.chain ∨ ¬ onBoard (candidate s p)
      · rw [if_pos hb]; exact ⟨_, _, rfl⟩
      · rw [if_neg hb]; exact ⟨_, _, rfl⟩
    · rw [tick_idle elapsed s (not_lt.mp hthr)]
      exact ⟨_, _, rfl⟩

/-- C17 at the initial session with 201 ms elapsed. -/
theorem tick_frame_witness :
    (∀ b s1, tick 201 initialSession = some (b, s1) →
        s1.direction_x = initialSession.direction_x ∧
        s1.direction_y = initialSession.direction_y ∧
        s1.score = initialSession.score ∧ s1.apple = initialSession.apple ∧
        ((b = false ∨ initialSession.delta_tick + 201 ≤ 200) →
          s1.chain = initialSession.chain) ∧
        (initialSession.delta_tick + 201 ≤ 200 →
          b = true ∧ s1.delta_tick = initialSession.delta_tick + 201) ∧
        (initialSession.delta_tick + 201 > 200 →
          s1.delta_tick = initialSession.delta_tick + 201 - 200)) ∧
      (initialSession.delta_tick + 201 ≤ 200 →
        tick 201 initialSession =
          some (true, { initialSession with delta_tick := initialSession.delta_tick + 201 })) ∧
      (initialSession.chain ≠ [] → ∃ b s1, tick 201 initialSession = some (b, s1)) :=
  tick_frame initialSession 201 (by decide)

/-! ## The passes of the game loop, case by case -/

/-- A pass that goes on, from a session satisfying the loop invariant, did
one of three things: no movement (and then no apple eaten); a movement onto
a free cell that is not the apple; a movement onto the apple followed by
`eatApple`. -/
theorem loopPass_cases (key : Key) (delta : Int) (draws rest : List Nat) (s s1 : Session)
    (hinv : LoopInv s) (h : loopPass key delta draws s = Pass.running s1 rest) :
    ∃ sk, handleKey key s = some sk ∧
      s1.direction_x = sk.direction_x ∧ s1.direction_y = sk.direction_y ∧
      ((s1.chain = s.chain ∧ s1.apple = s.apple ∧ s1.score = s.score ∧ rest = draws) ∨
        ∃ p t, s.chain = p :: t ∧ candidate sk p ∉ s.chain ∧ onBoard (candidate sk p) ∧
          sk.delta_tick + delta > UNIT_TICK ∧
          ((candidate sk p ≠ s.apple ∧ s1.chain = candidate sk p :: s.chain.dropLast ∧
              s1.apple = s.apple ∧ s1.score = s.score ∧ rest = draws) ∨
            (candidate sk p = s.apple ∧
              ∃ last, (candidate sk p :: s.chain.dropLast).getLast? = some last ∧
                s1.chain = (candidate sk p :: s.chain.dropLast) ++ [last] ∧
                s1.score = s.score + 1 ∧ s1.apple ∉ s1.chain))) := by
  obtain ⟨hne, happle, _⟩ := hinv
  obtain ⟨sk, s2, p2, t2, hk, ht, hc2, hcase⟩ := loopPass_running key delta draws rest s s1 h
  obtain ⟨hkc, hka, hks, hkd⟩ := handleKey_some key s sk hk
  obtain ⟨hta, hts, htdx, htdy, hmove⟩ := tick_some delta true sk s2 ht
  have hne2 : s2.chain ≠ [] := by rw [hc2]; exact List.cons_ne_nil _ _
  have hcross : s2.chain ≠ sk.chain → sk.delta_tick + delta > UNIT_TICK := by
    intro hdiff
    by_contra hle
    rw [tick_idle delta sk (not_lt.mp hle)] at ht
    cases ht
    exact hdiff rfl
  refine ⟨sk, hk, ?_⟩
  rcases hcase with ⟨hp, heat⟩ | ⟨hp, rfl, rfl⟩
  · -- the apple is eaten
    obtain ⟨_, hc1, hsc1, hdx1, hdy1, _⟩ := eatApple_some draws rest s2 s1 heat
    have hfresh : s1.apple ∉ s1.chain := by
      rw [eatApple_eq draws s2 hne2] at heat
      obtain ⟨hs1, hfree1, _⟩ := placeApple_some draws rest _ s1 heat
      have : s1.chain = s2.chain ++ [s2.chain.getLast hne2] := by rw [hs1]
      rw [this]; exact hfree1
    refine ⟨by rw [hdx1, htdx], by rw [hdy1, htdy], Or.inr ?_⟩
    rcases hmove with hsame | ⟨_, p0, t0, hc0, hfree, hboard, hnew⟩
    · exfalso
      apply happle
      rw [← hkc, ← hsame, ← hka, ← hta, ← hp, hc2]
      exact List.mem_cons_self _ _
    · rw [hkc] at hc0 hfree hnew
      have hhead : candidate sk p0 = p2 := by
        rw [hc2] at hnew
        exact (List.cons.inj hnew).1.symm
      have hdiff : s2.chain ≠ sk.chain := by
        rw [hnew, hkc]
        intro heq
        exact hfree (heq ▸ List.mem_cons_self _ _)
      refine ⟨p0, t0, hc0, hfree, hboard, hcross hdiff, Or.inr ⟨?_, ?_⟩⟩
      · rw [hhead, hp, hta, hka]
      · refine ⟨s2.chain.getLast hne2, ?_, ?_, ?_, hfresh⟩
        · rw [← hnew]; exact List.getLast?_eq_getLast _ hne2
        · rw [hc1, ← hnew]
        · rw [hsc1, hts, hks]
  · -- no apple is eaten
    refine ⟨htdx, htdy, ?_⟩
    rcases hmove with hsame | ⟨_, p0, t0, hc0, hfree, hboard, hnew⟩
    · exact Or.inl ⟨by rw [hsame, hkc], by rw [hta, hka], by rw [hts, hks], rfl⟩
    · rw [hkc] at hc0 hfree hnew
      have hhead : candidate sk p0 = p2 := by
        rw [hc2] at hnew
        exact (List.cons.inj hnew).1.symm
      have hdiff : s1.chain ≠ sk.chain := by
        rw [hnew, hkc]
        intro heq
        exact hfree (heq ▸ List.mem_cons_self _ _)
      refine Or.inr ⟨p0, t0, hc0, hfree, hboard, hcross hdiff, Or.inl ⟨?_, hnew, ?_, ?_, rfl⟩⟩
      · rw [hhead, ← hka, ← hta]; exact hp
      · rw [hta, hka]
      · rw [hts, hks]

/-! ## C18: only the tail may overlap -/

/-- C18. In every session the game loop reaches while alive, the chain
without its last segment has pairwise distinct positions, and the position
of the last segment either is that of the segment before it (just after a
grow) or differs from the position of every other segment.  Consequently
the head is never on the apple at the top of a pass: a pass without a
movement eats nothing, so `eatApple` is never triggered twice without a
movement in between. -/
theorem tail_only_overlap (s : Session) (h : Reachable s) :
    s.chain.dropLast.Nodup ∧
      (∀ last, s.chain.getLast? = some last →
        s.chain.dropLast.getLast? = some last ∨ last ∉ s.chain.dropLast) ∧
      (∀ p t, s.chain = p :: t → checkAppleCollision s p = false) ∧
      (∀ key sk delta draws, handleKey key s = some sk → s.delta_tick + delta ≤ 200 →
        loopPass key delta draws s =
          Pass.running { sk with delta_tick := sk.delta_tick + delta } draws) := by
  obtain ⟨hne, happle, htail⟩ := loopInv_of_reachable s h
  have hhead : ∀ p t, s.chain = p :: t → checkAppleCollision s p = false := by
    intro p t hc
    simp only [checkAppleCollision, decide_eq_false_iff_not]
    rintro ⟨hx, hy⟩
    apply happle
    have hp : p = s.apple := by
      cases p; cases hs : s.apple; simp_all
    rw [← hp, hc]
    exact List.mem_cons_self _ _
  refine ⟨tailDup_dropLast_nodup s.chain htail, ?_, hhead, ?_⟩
  · intro last hlast
    rcases htail with hnodup | ⟨l, p, hl, hn⟩
    · right
      intro hmem
      have hsplit : s.chain = s.chain.dropLast ++ [last] := by
        have hl2 := List.dropLast_append_getLast hne
        rw [List.getLast?_eq_getLast _ hne, Option.some.injEq] at hlast
        rw [hlast] at hl2
        exact hl2.symm
      rw [hsplit] at hnodup
      exact (List.nodup_append.mp hnodup).2.2 hmem (List.mem_singleton_self _)
    · left
      have hsplit : s.chain = (l ++ [p]) ++ [p] := by rw [hl]; simp
      rw [hsplit, List.getLast?_concat, Option.some.injEq] at hlast
      rw [hsplit, List.dropLast_concat, List.getLast?_concat, hlast]
  · intro key sk delta draws hk hle
    obtain ⟨hkc, hka, _, hkd⟩ := handleKey_some key s sk hk
    obtain ⟨p, t, hp⟩ : ∃ p t, s.chain = p :: t := by
      cases hs : s.chain with
      | nil => exact absurd hs hne
      | cons p t => exact ⟨p, t, rfl⟩
    have htick := tick_idle delta sk (by rw [hkd]; exact hle)
    have hcoll : ∀ s2 : Session, s2.apple = s.apple → checkAppleCollision s2 p = false := by
      intro s2 hs2
      have := hhead p t hp
      simp only [checkAppleCollision, hs2] at this ⊢
      exact this
    simp only [loopPass, hk, htick, hkc, hp]
    rw [if_neg]
    intro hc
    change checkAppleCollision sk p = true at hc
    rw [hcoll sk hka] at hc
    cases hc

/-- C18 at the session after the first apple was eaten. -/
theorem tail_only_overlap_witness :
    afterEating.chain.dropLast.Nodup ∧
      (∀ last, afterEating.chain.getLast? = some last →
        afterEating.chain.dropLast.getLast? = some last ∨
          last ∉ afterEating.chain.dropLast) ∧
      (∀ p t, afterEating.chain = p :: t → checkAppleCollision afterEating p = false) ∧
      (∀ key sk delta draws, handleKey key afterEating = some sk →
        afterEating.delta_tick + delta ≤ 200 →
        loopPass key delta draws afterEating =
          Pass.running { sk with delta_tick := sk.delta_tick + delta } draws) :=
  tail_only_overlap afterEating reachable_afterEating

/-! ## C19: the snake is connected -/

theorem handleKey_unitDirection (k : Key) (s sk : Session) (hs : unitDirection s)
    (h : handleKey k s = some sk) : unitDirection sk := by
  cases k <;> simp only [handleKey, Option.some.injEq] at h <;>
    first
    | (subst h; exact hs)
    | (subst h; simp [unitDirection])
    | exact absurd h (by simp)

theorem manhattan_candidate (sk : Session) (p : Position) (hs : unitDirection sk) :
    manhattan (candidate sk p) p = 1 := by
  simp only [manhattan, candidate]
  rcases hs with ⟨hx, hy⟩ | ⟨hx, hy⟩ | ⟨hx, hy⟩ | ⟨hx, hy⟩ <;> rw [hx, hy] <;> simp

theorem head?_dropLast (l : List Position) (y : Position)
    (h : l.dropLast.head? = some y) : l.head? = some y := by
  match l, h with
  | [_], h => simp at h
  | a :: b :: t, h =>
    simp only [List.dropLast, List.head?_cons] at h ⊢
    exact h

/-- The chain after one movement: the new head is one step from the old
head, the rest is the old chain without its last segment. -/
theorem chain'_shift (sk : Session) (p : Position) (t : List Position)
    (hs : unitDirection sk)
    (h : List.Chain' (fun p q => manhattan p q = 1) (p :: t).dropLast) :
    List.Chain' (fun p q => manhattan p q = 1) (candidate sk p :: (p :: t).dropLast) := by
  rw [List.chain'_cons']
  refine ⟨?_, h⟩
  intro y hy
  have hhead := head?_dropLast (p :: t) y hy
  simp only [List.head?_cons, Option.some.injEq] at hhead
  rw [← hhead]
  exact manhattan_candidate sk p hs

/-- One pass of the game loop that goes on keeps the snake connected. -/
theorem connected_pass (key : Key) (delta : Int) (draws rest : List Nat) (s s1 : Session)
    (hinv : LoopInv s) (hconn : Connected s)
    (h : loopPass key delta draws s = Pass.running s1 rest) : Connected s1 := by
  obtain ⟨hunit, hdrop, hall⟩ := hconn
  obtain ⟨sk, hk, hdx, hdy, hcase⟩ := loopPass_cases key delta draws rest s s1 hinv h
  have hunitk := handleKey_unitDirection key s sk hunit hk
  have hunit1 : unitDirection s1 := by
    simp only [unitDirection, hdx, hdy]
    exact hunitk
  rcases hcase with ⟨hc, _⟩ | ⟨p, t, hp, _, _, _, hsub⟩
  · exact ⟨hunit1, by rw [hc]; exact hdrop, by rw [hc]; exact hall⟩
  · have hmoved : List.Chain' (fun p q => manhattan p q = 1)
        (candidate sk p :: s.chain.dropLast) := by
      rw [hp]
      exact chain'_shift sk p t hunitk (hp ▸ hdrop)
    rcases hsub with ⟨_, hc, _⟩ | ⟨_, last, hlast, hc, _⟩
    · refine ⟨hunit1, ?_, ?_⟩
      · rw [hc]; exact hmoved.prefix (List.dropLast_prefix _)
      · rw [hc]; exact hmoved.imp (fun a b hab => by rw [hab])
    · refine ⟨hunit1, ?_, ?_⟩
      · rw [hc, List.dropLast_concat]; exact hmoved
      · rw [hc]
        refine List.Chain'.append (hmoved.imp (fun a b hab => by rw [hab]))
          (List.chain'_singleton _) ?_
        intro x hx y hy
        rw [hlast] at hx
        simp only [Option.mem_def, Option.some.injEq, List.head?_cons] at hx hy
        rw [← hx, ← hy]
        simp [manhattan]

theorem connected_of_reachable (s : Session) (h : Reachable s) : Connected s := by
  have hinit : initialSession.chain = [⟨10, 10⟩, ⟨10, 11⟩, ⟨10, 12⟩, ⟨10, 13⟩] := by decide
  induction h with
  | start draws rest s hs =>
    obtain ⟨hc, _, hdx, hdy, _⟩ := placeApple_frame draws rest initialSession s hs
    refine ⟨?_, ?_, ?_⟩
    · simp only [unitDirection, hdx, hdy]; decide
    · rw [hc, hinit]
      simp [List.dropLast, manhattan]
    · rw [hc, hinit]
      simp [manhattan]
  | pass key delta draws rest s s1 hr _ hp ih =>
    exact connected_pass key delta draws rest s s1 (loopInv_of_reachable s hr) ih hp

/-- C19. In every session reached from the initial session by passes of the
game loop (the key handler overwriting the direction with one of `(-1,0)`,
`(1,0)`, `(0,-1)`, `(0,1)`, `tick` with elapsed time `≥ 0`, `eatApple`), the
direction is one of the four unit vectors along the axes and two consecutive
segments of the chain are at Manhattan distance at most 1: exactly 1 for
every pair not involving the last segment, while the last segment may lie on
the one before it, as it does after a grow. -/
theorem snake_connected (s : Session) (h : Reachable s) :
    ((s.direction_x = -1 ∧ s.direction_y = 0) ∨ (s.direction_x = 1 ∧ s.direction_y = 0) ∨
        (s.direction_x = 0 ∧ s.direction_y = -1) ∨ (s.direction_x = 0 ∧ s.direction_y = 1)) ∧
      List.Chain' (fun p q => manhattan p q ≤ 1) s.chain ∧
      List.Chain' (fun p q => manhattan p q = 1) s.chain.dropLast := by
  obtain ⟨hunit, hdrop, hall⟩ := connected_of_reachable s h
  exact ⟨hunit, hall, hdrop⟩

/-- C19 at the session after the first apple was eaten. -/
theorem snake_connected_witness :
    ((afterEating.direction_x = -1 ∧ afterEating.direction_y = 0) ∨
        (afterEating.direction_x = 1 ∧ afterEating.direction_y = 0) ∨
        (afterEating.direction_x = 0 ∧ afterEating.direction_y = -1) ∨
        (afterEating.direction_x = 0 ∧ afterEating.direction_y = 1)) ∧
      List.Chain' (fun p q => manhattan p q ≤ 1) afterEating.chain ∧
      List.Chain' (fun p q => manhattan p q = 1) afterEating.chain.dropLast :=
  snake_connected afterEating reachable_afterEating

/-! ## C15: eating the apple -/

/-- The pass in which the head moves onto the apple, up to the call of
`eatApple`: `tick` returns true with the head on the apple, and the pass
ends as `eatApple` does. -/
theorem loopPass_onto_apple (s sk : Session) (key : Key) (p0 : Position)
    (rest : List Position) (elapsed : Int) (draws : List Nat)
    (hkey : handleKey key s = some sk) (hchain : s.chain = p0 :: rest)
    (hitem : s.apple = candidate sk p0) (hboard : onBoard s.apple)
    (hfree : s.apple ∉ s.chain) (hthr : s.delta_tick + elapsed > 200) :
    tick elapsed sk =
        some (true, { sk with delta_tick := sk.delta_tick + elapsed - UNIT_TICK,
                              chain := s.apple :: (p0 :: rest).dropLast }) ∧
      loopPass key elapsed draws s =
        match eatApple draws { sk with delta_tick := sk.delta_tick + elapsed - UNIT_TICK,
                                       chain := s.apple :: (p0 :: rest).dropLast } with
        | none => Pass.stuck
        | some (s3, draws3) => Pass.running s3 draws3 := by
  obtain ⟨hkc, hka, _, hkd⟩ := handleKey_some key s sk hkey
  have hc : sk.chain = p0 :: rest := by rw [hkc, hchain]
  have hnot : ¬ (candidate sk p0 ∈ sk.chain ∨ ¬ onBoard (candidate sk p0)) := by
    rw [← hitem, hkc]
    rintro (hm | hb)
    · exact hfree hm
    · exact hb hboard
  have htick := tick_cross elapsed sk p0 rest hc (by rw [hkd]; exact hthr)
  rw [if_neg hnot, ← hitem, hc] at htick
  refine ⟨htick, ?_⟩
  have hcoll : checkAppleCollision
      { sk with delta_tick := sk.delta_tick + elapsed - UNIT_TICK,
                chain := s.apple :: (p0 :: rest).dropLast } s.apple = true := by
    simp [checkAppleCollision, hka]
  simp only [loopPass, hkey, htick, hcoll, if_true]

/-- C15, amended.  For every session (reachable or not): when, after the key
is handled, the apple is at `head + direction`, on the board and on no
segment, and the accumulated time plus `elapsed` exceeds 200, then
`tick elapsed` returns true and moves the head onto the apple; the pass goes
on to `draw()` for all draws that contain a sampled cell off the moved
chain, and whenever it does, the head is on the old apple position, score
and chain length are one larger, and the new apple is on no segment of the
longer chain.  Conversely, in a pass where `tick` returns true and the head
is then not on the apple, score, length and apple stay as they were.  And
when the moved chain covers every cell of the board, `eatApple` never
returns: the pass gets no further, whatever the draws. -/
theorem eat_scenario (s sk : Session) (key : Key) (p0 : Position) (rest : List Position)
    (elapsed : Int) (hkey : handleKey key s = some sk) (hchain : s.chain = p0 :: rest)
    (hitem : s.apple = candidate sk p0)
    (hboard : 0 ≤ s.apple.x ∧ s.apple.x < 20 ∧ 0 ≤ s.apple.y ∧ s.apple.y < 20)
    (hfree : ∀ q ∈ s.chain, q ≠ s.apple) (hthr : s.delta_tick + elapsed > 200) :
    (∃ s2, tick elapsed sk = some (true, s2) ∧
        s2.chain = s.apple :: (p0 :: rest).dropLast) ∧
      (∀ draws, (∃ k q, sample draws k = some q ∧ q ∉ s.apple :: (p0 :: rest).dropLast) →
        ∃ s1 left, loopPass key elapsed draws s = Pass.running s1 left) ∧
      (∀ draws s1 left, loopPass key elapsed draws s = Pass.running s1 left →
        s1.chain.head? = some s.apple ∧ s1.score = s.score + 1 ∧
        s1.chain.length = s.chain.length + 1 ∧ (∀ q ∈ s1.chain, q ≠ s1.apple)) ∧
      (∀ key2 sk2 e2 draws s2 p t, handleKey key2 s = some sk2 →
        tick e2 sk2 = some (true, s2) → s2.chain = p :: t → p ≠ s2.apple →
        loopPass key2 e2 draws s = Pass.running s2 draws ∧ s2.score = s.score ∧
        s2.chain.length = s.chain.length ∧ s2.apple = s.apple) ∧
      ((∀ p, onBoard p → p ∈ s.apple :: (p0 :: rest).dropLast) →
        ∀ draws, loopPass key elapsed draws s = Pass.stuck) := by
  have hfree1 : s.apple ∉ s.chain := fun hm => hfree _ hm rfl
  obtain ⟨hkc, hka, hks, hkd⟩ := handleKey_some key s sk hkey
  have hmoved : ∀ draws, _ := fun draws =>
    loopPass_onto_apple s sk key p0 rest elapsed draws hkey hchain hitem hboard hfree1 hthr
  have hne2 : ({ sk with delta_tick := sk.delta_tick + elapsed - UNIT_TICK,
                         chain := s.apple :: (p0 :: rest).dropLast } : Session).chain ≠ [] :=
    List.cons_ne_nil _ _
  refine ⟨⟨_, (hmoved []).1, rfl⟩, ?_, ?_, ?_, ?_⟩
  rotate_right
  · intro hcover draws
    rw [(hmoved draws).2, eatApple_eq draws _ hne2]
    rw [placeApple_none_of_covered]
    intro p hp
    exact List.mem_append_left _ (hcover p hp)
  · rintro draws ⟨k, q, hk, hq⟩
    rw [(hmoved draws).2, eatApple_eq draws _ hne2]
    have hq1 : q ∉ (s.apple :: (p0 :: rest).dropLast) ++
        [(s.apple :: (p0 :: rest).dropLast).getLast (List.cons_ne_nil _ _)] := by
      intro hm
      rcases List.mem_append.mp hm with hm | hm
      · exact hq hm
      · rw [List.mem_singleton] at hm
        exact hq (hm ▸ List.getLast_mem _)
    obtain ⟨s1, left, hplace⟩ := placeApple_returns draws
      { sk with delta_tick := sk.delta_tick + elapsed - UNIT_TICK,
                score := sk.score + 1,
                chain := (s.apple :: (p0 :: rest).dropLast) ++
                  [(s.apple :: (p0 :: rest).dropLast).getLast (List.cons_ne_nil _ _)] }
      k q hk hq1
    exact ⟨s1, left, by rw [hplace]⟩
  · intro draws s1 left hrun
    rw [(hmoved draws).2] at hrun
    cases heat : eatApple draws
        { sk with delta_tick := sk.delta_tick + elapsed - UNIT_TICK,
                  chain := s.apple :: (p0 :: rest).dropLast } with
    | none => rw [heat] at hrun; cases hrun
    | some r =>
      obtain ⟨s3, d3⟩ := r
      rw [heat] at hrun
      simp only [Pass.running.injEq] at hrun
      obtain ⟨rfl, rfl⟩ := hrun
      obtain ⟨_, hc3, hsc3, _⟩ := eatApple_some draws d3 _ s3 heat
      have hfresh : s3.apple ∉ s3.chain := by
        rw [eatApple_eq draws _ hne2] at heat
        obtain ⟨hs3, hfree3, _⟩ := placeApple_some draws d3 _ s3 heat
        have hc : s3.chain = (s.apple :: (p0 :: rest).dropLast) ++
            [(s.apple :: (p0 :: rest).dropLast).getLast (List.cons_ne_nil _ _)] := by
          rw [hs3]
        rw [hc]; exact hfree3
      refine ⟨?_, ?_, ?_, fun q hq heq => hfresh (heq ▸ hq)⟩
      · rw [hc3]; rfl
      · rw [hsc3]; show sk.score + 1 = s.score + 1; rw [hks]
      · rw [hc3, hchain]; simp
  · intro key2 sk2 e2 draws s2 p t hk2 ht2 hc2 hp
    obtain ⟨_, hka2, hks2, _⟩ := handleKey_some key2 s sk2 hk2
    obtain ⟨hta, hts, _, _, _⟩ := tick_some e2 true sk2 s2 ht2
    have hcoll : checkAppleCollision s2 p = false := by
      simp only [checkAppleCollision, decide_eq_false_iff_not]
      rintro ⟨hx, hy⟩
      apply hp
      cases p; cases hs : s2.apple; simp_all
    refine ⟨?_, by rw [hts, hks2], ?_, by rw [hta, hka2]⟩
    · simp only [loopPass, hk2, ht2, hc2, hcoll]
      simp
    · rw [tick_length e2 true sk2 s2 ht2, (handleKey_some key2 s sk2 hk2).1]

/-- C15 amended, at the start of the game with the first apple at `(10, 9)`,
no key pressed and 201 ms elapsed. -/
theorem eat_scenario_witness :
    (∃ s2, tick 201 firstApple = some (true, s2) ∧
        s2.chain = firstApple.apple ::
          ((⟨10, 10⟩ : Position) :: [⟨10, 11⟩, ⟨10, 12⟩, ⟨10, 13⟩]).dropLast) ∧
      (∀ draws, (∃ k q, sample draws k = some q ∧
          q ∉ firstApple.apple ::
            ((⟨10, 10⟩ : Position) :: [⟨10, 11⟩, ⟨10, 12⟩, ⟨10, 13⟩]).dropLast) →
        ∃ s1 left, loopPass Key.other 201 draws firstApple = Pass.running s1 left) ∧
      (∀ draws s1 left, loopPass Key.other 201 draws firstApple = Pass.running s1 left →
        s1.chain.head? = some firstApple.apple ∧ s1.score = firstApple.score + 1 ∧
        s1.chain.length = firstApple.chain.length + 1 ∧ (∀ q ∈ s1.chain, q ≠ s1.apple)) ∧
      (∀ key2 sk2 e2 draws s2 p t, handleKey key2 firstApple = some sk2 →
        tick e2 sk2 = some (true, s2) → s2.chain = p :: t → p ≠ s2.apple →
        loopPass key2 e2 draws firstApple = Pass.running s2 draws ∧
        s2.score = firstApple.score ∧
        s2.chain.length = firstApple.chain.length ∧ s2.apple = firstApple.apple) ∧
      ((∀ p, onBoard p → p ∈ firstApple.apple ::
          ((⟨10, 10⟩ : Position) :: [⟨10, 11⟩, ⟨10, 12⟩, ⟨10, 13⟩]).dropLast) →
        ∀ draws, loopPass Key.other 201 draws firstApple = Pass.stuck) :=
  eat_scenario firstApple firstApple Key.other ⟨10, 10⟩ [⟨10, 11⟩, ⟨10, 12⟩, ⟨10, 13⟩] 201
    (by decide) (by decide) (by decide) (by decide) (by decide) (by decide)

/-! ### A game that fills the board -/

set_option maxRecDepth 100000 in
theorem tourCell_facts :
    ∀ n, n < 400 → (onBoard (tourCell n) ∧ tourIndex (tourCell n) = n ∧
      adjacent (tourCell n) (tourCell ((n + 1) % 400)) = true) := by
  decide

set_option maxRecDepth 100000 in
theorem tourIndex_facts :
    ∀ p ∈ fullBoard, tourIndex p < 400 ∧ tourCell (tourIndex p) = p := by
  decide

theorem cell_onBoard (i : Nat) : onBoard (cell i) :=
  (tourCell_facts _ (Nat.mod_lt _ (by decide))).1

theorem cell_inj (i j : Nat) (h : cell i = cell j) : (i + 197) % 400 = (j + 197) % 400 := by
  have hi := (tourCell_facts ((i + 197) % 400) (Nat.mod_lt _ (by decide))).2.1
  have hj := (tourCell_facts ((j + 197) % 400) (Nat.mod_lt _ (by decide))).2.1
  unfold cell at h
  rw [← hi, ← hj, h]

theorem cell_adjacent (i : Nat) : adjacent (cell i) (cell (i + 1)) = true := by
  have h := (tourCell_facts ((i + 197) % 400) (Nat.mod_lt _ (by decide))).2.2
  have hidx : ((i + 197) % 400 + 1) % 400 = (i + 1 + 197) % 400 := by omega
  rw [hidx] at h
  exact h

theorem cell_surj (p : Position) (hp : onBoard p) : ∃ i, 1 ≤ i ∧ i ≤ 400 ∧ cell i = p := by
  obtain ⟨hlt, hcell⟩ := tourIndex_facts p ((mem_fullBoard_iff p).mpr hp)
  by_cases hbig : 198 ≤ tourIndex p
  · refine ⟨tourIndex p - 197, by omega, by omega, ?_⟩
    have hidx : (tourIndex p - 197 + 197) % 400 = tourIndex p := by omega
    rw [cell, hidx, hcell]
  · refine ⟨tourIndex p + 203, by omega, by omega, ?_⟩
    have hidx : (tourIndex p + 203 + 197) % 400 = tourIndex p := by omega
    rw [cell, hidx, hcell]

theorem mem_cells (x : Position) (n : Nat) :
    x ∈ (List.range' 1 n).reverse.map cell ↔ ∃ i, 1 ≤ i ∧ i ≤ n ∧ cell i = x := by
  simp only [List.mem_map, List.mem_reverse, List.mem_range'_1]
  constructor
  · rintro ⟨i, ⟨h1, h2⟩, rfl⟩
    exact ⟨i, h1, by omega, rfl⟩
  · rintro ⟨i, h1, h2, rfl⟩
    exact ⟨i, ⟨h1, by omega⟩, rfl⟩

theorem cells_succ (n : Nat) :
    (List.range' 1 (n + 1)).reverse.map cell =
      cell (n + 1) :: (List.range' 1 n).reverse.map cell := by
  rw [List.range'_concat, List.reverse_append]
  simp [Nat.add_comm]

theorem cells_last (n : Nat) :
    (List.range' 1 (n + 1)).reverse.map cell =
      (List.range' 2 n).reverse.map cell ++ [cell 1] := by
  rw [List.range'_succ, List.reverse_cons, List.map_append]
  rfl

/-- Steering towards a neighbouring cell makes that cell the candidate. -/
theorem keyToward_step (a b : Position) (s : Session) (h : adjacent a b = true) :
    handleKey (keyToward a b) s =
        some { s with direction_x := b.x - a.x, direction_y := b.y - a.y } ∧
      candidate { s with direction_x := b.x - a.x, direction_y := b.y - a.y } a = b := by
  have hcand : candidate { s with direction_x := b.x - a.x, direction_y := b.y - a.y } a
      = b := by
    cases a; cases b
    simp only [candidate, Position.mk.injEq]
    constructor <;> ring
  refine ⟨?_, hcand⟩
  simp only [adjacent, Bool.or_eq_true, decide_eq_true_eq] at h
  rcases h with ((h | h) | h) | h <;> subst h
  · have h1 : a.x - 1 < a.x := by omega
    simp [keyToward, h1, handleKey]
  · have h1 : ¬ (a.x + 1 < a.x) := by omega
    have h2 : a.x + 1 > a.x := by omega
    simp [keyToward, h1, h2, handleKey]
  · have h1 : a.y - 1 < a.y := by omega
    simp [keyToward, h1, handleKey]
  · have h1 : ¬ (a.y + 1 < a.y) := by omega
    simp [keyToward, h1, handleKey]

/-- With two draws that are the coordinates of a free cell of the board,
`placeApple` puts the apple there at the first attempt. -/
theorem placeApple_two (p : Position) (s : Session) (hp : onBoard p) (hfree : p ∉ s.chain) :
    placeApple [p.x.toNat, p.y.toNat] s = some ({ s with apple := p }, []) := by
  obtain ⟨hx0, hx1, hy0, hy1⟩ := hp
  have hx : ((p.x.toNat : Nat) : Int) % BOARD_WIDTH = p.x := by
    rw [Int.toNat_of_nonneg hx0]
    exact Int.emod_eq_of_lt hx0 hx1
  have hy : ((p.y.toNat : Nat) : Int) % BOARD_HEIGHT = p.y := by
    rw [Int.toNat_of_nonneg hy0]
    exact Int.emod_eq_of_lt hy0 hy1
  have hcol : checkSnakeCollision s.chain p = false :=
    (checkSnakeCollision_eq_false_iff _ _).mpr hfree
  simp only [placeApple, hx, hy, hcol]
  simp

theorem append_getLast_eq (l l1 : List Position) (x : Position) (hne : l ≠ [])
    (h : l = l1 ++ [x]) : l ++ [l.getLast hne] = l ++ [x] := by
  subst h
  simp

theorem played_chain (k : Nat) :
    (played k).chain =
      cell (k + 3) ::
        ((List.range' 1 (k + 2)).reverse.map cell ++ [cell (if k = 0 then 0 else 1)]) := by
  show (List.range' 1 (k + 2 + 1)).reverse.map cell ++ _ = _
  rw [cells_succ (k + 2)]
  rfl

theorem played_dropLast (k : Nat) :
    (played k).chain.dropLast = (List.range' 1 (k + 3)).reverse.map cell := by
  show (((List.range' 1 (k + 3)).reverse.map cell) ++ [_]).dropLast = _
  rw [List.dropLast_concat]

theorem played_apple_free (k : Nat) (hk : k ≤ 396) : (played k).apple ∉ (played k).chain := by
  show cell (k + 4) ∉ ((List.range' 1 (k + 3)).reverse.map cell) ++ [_]
  intro hm
  rcases List.mem_append.mp hm with hm | hm
  · obtain ⟨i, h1, h2, hi⟩ := (mem_cells _ _).mp hm
    have := cell_inj i (k + 4) hi
    omega
  · rw [List.mem_singleton] at hm
    have := cell_inj _ _ hm
    split at this <;> omega

/-- One pass of the game: the player steers onto the apple, and the draws
put the next apple on the next cell of the tour. -/
theorem played_step (k : Nat) (hk : k < 396) :
    loopPass (keyToward (cell (k + 3)) (cell (k + 4))) 201
        [(cell (k + 5)).x.toNat, (cell (k + 5)).y.toNat] (played k) =
      Pass.running (played (k + 1)) [] := by
  obtain ⟨hkey, hcand⟩ :=
    keyToward_step (cell (k + 3)) (cell (k + 4)) (played k) (cell_adjacent (k + 3))
  have hthr : (played k).delta_tick + 201 > 200 := by
    show (k : Int) + 201 > 200
    omega
  have hmoved := loopPass_onto_apple (played k) _ _ (cell (k + 3)) _ 201
    [(cell (k + 5)).x.toNat, (cell (k + 5)).y.toNat] hkey (played_chain k) hcand.symm
    (cell_onBoard _) (played_apple_free k (by omega)) hthr
  rw [hmoved.2, eatApple_eq _ _ (List.cons_ne_nil _ _)]
  have hdrop : (cell (k + 3) :: ((List.range' 1 (k + 2)).reverse.map cell ++
      [cell (if k = 0 then 0 else 1)])).dropLast = (List.range' 1 (k + 3)).reverse.map cell := by
    rw [← played_chain k, played_dropLast]
  have hcells : (played k).apple :: (List.range' 1 (k + 3)).reverse.map cell =
      (List.range' 1 (k + 4)).reverse.map cell := (cells_succ (k + 3)).symm
  have hgrow := append_getLast_eq ((List.range' 1 (k + 4)).reverse.map cell)
    ((List.range' 2 (k + 3)).reverse.map cell) (cell 1)
  simp only [hdrop, hcells]
  rw [hgrow _ (cells_last (k + 3))]
  rw [placeApple_two (cell (k + 5)) _ (cell_onBoard _)]
  · simp only [played, Pass.running.injEq, and_true, Session.mk.injEq, true_and]
    refine ⟨by simp, ?_, ?_⟩
    · simp only [UNIT_TICK]; push_cast; ring
    · push_cast; ring
  · show cell (k + 5) ∉ ((List.range' 1 (k + 4)).reverse.map cell) ++ [cell 1]
    intro hm
    rcases List.mem_append.mp hm with hm | hm
    · obtain ⟨i, h1, h2, hi⟩ := (mem_cells _ _).mp hm
      have := cell_inj i (k + 5) hi
      omega
    · rw [List.mem_singleton] at hm
      have := cell_inj _ _ hm
      omega

theorem played_zero : played 0 = firstApple := by
  decide

/-- Every session of the game, up to the 396th pass, is reached by the game
loop. -/
theorem played_reachable (k : Nat) (hk : k ≤ 396) : Reachable (played k) := by
  induction k with
  | zero =>
    rw [played_zero]
    exact Reachable.start [10, 9] [] firstApple (by decide)
  | succ k ih =>
    exact Reachable.pass _ 201 _ [] (played k) (played (k + 1)) (ih (by omega)) (by decide)
      (played_step k (by omega))

/-- C15, as stated, fails.  `played 396` is the session after 396 passes of
the game loop in which the snake followed a tour of the board and ate an
apple every time; it is reachable, the snake has 400 segments with the head
on `(10, 14)` heading up, and the apple is right in front of the head at
`(10, 13)`, on the board and on no segment.  With 201 ms elapsed `tick`
returns true, the snake then covers the whole board, and `eatApple` never
returns, whatever the draws: the pass never gets to leave a new apple. -/
theorem eat_scenario_counterexample :
    Reachable (played 396) ∧ (played 396).chain.length = 400 ∧
      (played 396).chain.head? = some ⟨10, 14⟩ ∧ (played 396).apple = ⟨10, 13⟩ ∧
      (played 396).direction_x = 0 ∧ (played 396).direction_y = -1 ∧
      (played 396).apple = candidate (played 396) ⟨10, 14⟩ ∧ onBoard (played 396).apple ∧
      (∀ q ∈ (played 396).chain, q ≠ (played 396).apple) ∧
      (played 396).delta_tick + 201 > 200 ∧
      (∃ s2, tick 201 (played 396) = some (true, s2)) ∧
      ∀ draws, loopPass Key.other 201 draws (played 396) = Pass.stuck := by
  have hhead : cell 399 = ⟨10, 14⟩ := by decide
  have happle : (played 396).apple = ⟨10, 13⟩ := by
    show cell 400 = _
    decide
  have hdx : (played 396).direction_x = 0 := by
    show (cell 399).x - (cell 398).x = 0
    decide
  have hdy : (played 396).direction_y = -1 := by
    show (cell 399).y - (cell 398).y = -1
    decide
  have hchain := played_chain 396
  rw [hhead] at hchain
  have hitem : (played 396).apple = candidate (played 396) ⟨10, 14⟩ := by
    rw [happle]
    simp only [candidate, hdx, hdy]
    decide
  have hboard : onBoard (played 396).apple := cell_onBoard _
  have hfree := played_apple_free 396 (le_refl _)
  have hthr : (played 396).delta_tick + 201 > 200 := by
    show ((396 : Nat) : Int) + 201 > 200
    decide
  have hmoved := fun draws =>
    loopPass_onto_apple (played 396) (played 396) Key.other ⟨10, 14⟩ _ 201 draws rfl hchain
      hitem hboard hfree hthr
  refine ⟨played_reachable 396 (le_refl _), ?_, ?_, happle, hdx, hdy, hitem, hboard,
    fun q hq heq => hfree (heq ▸ hq), hthr, ⟨_, (hmoved []).1⟩, ?_⟩
  · simp [played]
  · rw [hchain]; rfl
  · intro draws
    rw [(hmoved draws).2, eatApple_eq draws _ (List.cons_ne_nil _ _)]
    rw [placeApple_none_of_covered]
    intro p hp
    obtain ⟨i, h1, h2, hi⟩ := cell_surj p hp
    apply List.mem_append_left
    show p ∈ (played 396).apple :: _
    rw [← hchain, played_dropLast]
    by_cases h400 : i = 400
    · rw [← hi, h400]
      exact List.mem_cons_self _ _
    · exact List.mem_cons_of_mem _ ((mem_cells _ _).mpr ⟨i, h1, by omega, hi⟩)

end Snake
